import Mathlib

/-!
Verification of the sparse methylation-matrix engine of the scbs package
(`src/scbs/scbs.py`), shallowly embedded in Lean 4.

Conventions of the embedding:
* numpy float NaN is modelled by `Option ℚ` (`none` = NaN); all real
  arithmetic in the engine is rational, so exact `ℚ` arithmetic is faithful.
* numpy integer arrays are `List Int` / `List Nat`; slicing `a[i:j]` with
  nonnegative bounds is `(l.drop i).take (j - i)`, which clamps exactly like
  Python slicing does; slices with possibly negative bounds use `pySlice`,
  which reproduces Python's negative-index wrap-around.
* a runtime crash of the Python code (IndexError / KeyError) is modelled by
  an `Option` result of value `none`.
-/

namespace Scbs

/-- Python slice index resolution for a sequence of length `L`:
negative indices count from the end, then the index is clamped to `[0, L]`. -/
def pySliceIdx (L : Nat) (i : Int) : Nat :=
  if i < 0 then (max (i + L) 0).toNat else min i.toNat L

/-- Python slicing `l[a:b]` (step 1), including negative-index wrap-around. -/
def pySlice {α : Type} (l : List α) (a b : Int) : List α :=
  let s := pySliceIdx l.length a
  let e := pySliceIdx l.length b
  (l.drop s).take (e - s)

/-- Python `max` on a list of integers (the `[]` case is unreachable in the
source, which guards `if peak_ends`). -/
def pyMax (l : List Int) : Int :=
  match l with
  | [] => 0
  | x :: xs => xs.foldl max x

/-- NaN-aware `>` on floats modelled as `Option ℚ`: any comparison involving
NaN is `False`, exactly as for IEEE floats in numpy/numba. -/
def gtOpt : Option ℚ → Option ℚ → Bool
  | some a, some b => decide (b < a)
  | _, _ => false

/-- The loop state of `_find_peaks`: the two growing Python lists
`peak_starts`, `peak_ends` and the `in_peak` flag. -/
structure PeakState where
  starts : List Int
  ends : List Int
  inPeak : Bool
deriving Repr, DecidableEq

/-- One iteration of the `for var, pos in zip(...)` loop body of
`_find_peaks` (src/scbs/scbs.py lines 655-670). -/
def find_peaks_step (cutoff : Option ℚ) (halfBw : Int) (st : PeakState)
    (vp : Option ℚ × Int) : PeakState :=
  if gtOpt vp.1 cutoff then
    if st.inPeak then st
    else
      -- entering new peak
      if st.ends ≠ [] ∧ vp.2 - halfBw ≤ pyMax st.ends then
        -- not really a new peak: previous end is popped, no start recorded
        { starts := st.starts, ends := st.ends.dropLast, inPeak := true }
      else
        { starts := st.starts ++ [vp.2 - halfBw], ends := st.ends, inPeak := true }
  else
    if st.inPeak then
      -- exiting peak
      { starts := st.starts, ends := st.ends ++ [vp.2 + halfBw], inPeak := false }
    else st

/-- `_find_peaks(smoothed_vars, swindow_centers, var_cutoff, half_bw)`
(src/scbs/scbs.py lines 649-674).  After the loop, a still-open peak is
closed at the raw position of the last iterated pair (`pos` leaks out of
the Python `for` loop). -/
def find_peaks (smoothedVars : List (Option ℚ)) (swindowCenters : List Int)
    (varCutoff : Option ℚ) (halfBw : Int) : List Int × List Int :=
  let pairs := smoothedVars.zip swindowCenters
  let st := pairs.foldl (find_peaks_step varCutoff halfBw)
    { starts := [], ends := [], inPeak := false }
  match pairs.getLast? with
  | some vp => if st.inPeak then (st.starts, st.ends ++ [vp.2]) else (st.starts, st.ends)
  | none => (st.starts, st.ends)

/-- C2: in `_find_peaks`, on a NOT_IN_PEAK → IN_PEAK transition at a window
whose variance exceeds the threshold, the candidate start is
`pos - half_bw`; if the preceding closed peak's end is ≥ this candidate
start, that end is popped and no new start is recorded (the peaks merge).
In particular window variances [0.1, 0.6, 0.55, 0.05, 0.6] at evenly spaced
positions 100..140 with threshold 0.5 and half-bandwidth 50 produce exactly
one merged peak ([60], [140]), not two. -/
theorem c2_peak_merge_on_entry :
    (∀ (cutoff : Option ℚ) (halfBw : Int) (st : PeakState) (var : Option ℚ) (pos : Int),
      st.inPeak = false → gtOpt var cutoff = true → st.ends ≠ [] →
      pos - halfBw ≤ pyMax st.ends →
      find_peaks_step cutoff halfBw st (var, pos) =
        { starts := st.starts, ends := st.ends.dropLast, inPeak := true }) ∧
    find_peaks [some (1/10), some (6/10), some (55/100), some (5/100), some (6/10)]
      [100, 110, 120, 130, 140] (some (1/2)) 50 = ([60], [140]) := by
  constructor
  · intro cutoff halfBw st var pos hip hgt hne hle
    simp only [find_peaks_step, hgt, hip, if_true, Bool.false_eq_true, if_false]
    rw [if_pos ⟨hne, hle⟩]
  · norm_num [find_peaks, find_peaks_step, gtOpt, pyMax, List.zip]

/-- Witness for C2: the merge branch taken at a concrete state. -/
theorem c2_peak_merge_on_entry_witness :
    find_peaks_step (some (1/2)) 50 { starts := [60], ends := [180], inPeak := false }
      (some (6/10), 140) = { starts := [60], ends := [], inPeak := true } := by
  have h := c2_peak_merge_on_entry.1 (some (1/2)) 50
    { starts := [60], ends := [180], inPeak := false } (some (6/10)) 140
    rfl (by norm_num [gtOpt]) (by decide) (by decide)
  exact h

/-- C9: in `_find_peaks`, a peak that is closed normally (IN_PEAK and the
variance falls to or below the threshold) gets end `pos + half_bw`, while a
peak still open after the last window is closed at the last window's raw
position `pos`, not extended by the half-bandwidth. -/
theorem c9_open_peak_closed_at_raw_position :
    (∀ (cutoff : Option ℚ) (halfBw : Int) (st : PeakState) (var : Option ℚ) (pos : Int),
      st.inPeak = true → gtOpt var cutoff = false →
      find_peaks_step cutoff halfBw st (var, pos) =
        { starts := st.starts, ends := st.ends ++ [pos + halfBw], inPeak := false }) ∧
    (∀ (smoothedVars : List (Option ℚ)) (centers : List Int) (cutoff : Option ℚ)
      (halfBw : Int) (v : Option ℚ) (p : Int),
      (smoothedVars.zip centers).getLast? = some (v, p) →
      ((smoothedVars.zip centers).foldl (find_peaks_step cutoff halfBw)
          { starts := [], ends := [], inPeak := false }).inPeak = true →
      find_peaks smoothedVars centers cutoff halfBw =
        (((smoothedVars.zip centers).foldl (find_peaks_step cutoff halfBw)
          { starts := [], ends := [], inPeak := false }).starts,
         ((smoothedVars.zip centers).foldl (find_peaks_step cutoff halfBw)
          { starts := [], ends := [], inPeak := false }).ends ++ [p])) := by
  constructor
  · intro cutoff halfBw st var pos hip hgt
    simp only [find_peaks_step, hgt, Bool.false_eq_true, if_false, hip, if_true]
  · intro smoothedVars centers cutoff halfBw v p hlast hip
    simp only [find_peaks, hlast, hip, if_true]

/-- Witness for C9: a window list ending while IN_PEAK; the peak is closed
at the raw last position 5 (not 5 + 50). -/
theorem c9_open_peak_closed_at_raw_position_witness :
    find_peaks [some 1] [5] (some 0) 50 = ([-45], [5]) := by
  have h := c9_open_peak_closed_at_raw_position.2 [some 1] [5] (some 0) 50
    (some 1) 5 rfl rfl
  rw [h]
  norm_num [find_peaks_step, gtOpt, List.zip]

/-! ## Ingestion: `_dump_coo_files` and the COO → CSR assembly of `prepare` -/

/-- One parsed input record, as produced by `_line_to_values`:
(chromosome, genomic position, methylated count, unmethylated count). -/
structure Record where
  chrom : String
  pos : Nat
  n_meth : Int
  n_unmeth : Int
deriving Repr, DecidableEq

/-- The mutable state of `_dump_coo_files`: the per-chromosome staging
streams (`coo_files`, modelled as the list of written triples), the
per-chromosome maximum observed position (`chrom_sizes`), and which
chromosomes have been registered in the dictionaries. -/
structure DumpState where
  files : String → List (Nat × Nat × Int)
  sizes : String → Nat
  active : String → Bool

/-- Initial `_dump_coo_files` state: empty dictionaries. -/
def dumpEmpty : DumpState :=
  { files := fun _ => [], sizes := fun _ => 0, active := fun _ => false }

/-- The body of the per-line loop of `_dump_coo_files`
(src/scbs/scbs.py lines 373-383) for one record of cell `cellN`:
ambiguous records (both counts nonzero) are skipped, otherwise the value
+1 (methylated count positive) or -1 is staged at (position, cellN). -/
def dump_record (cellN : Nat) (st : DumpState) (r : Record) : DumpState :=
  if r.n_meth ≠ 0 ∧ r.n_unmeth ≠ 0 then
    st
  else
    let methValue : Int := if 0 < r.n_meth then 1 else -1
    let st1 : DumpState :=
      if st.active r.chrom then st
      else { st with active := fun ch => if ch = r.chrom then true else st.active ch }
    let st2 : DumpState :=
      if st1.sizes r.chrom < r.pos then
        { st1 with sizes := fun ch => if ch = r.chrom then r.pos else st1.sizes ch }
      else st1
    { st2 with
      files := fun ch =>
        if ch = r.chrom then st2.files ch ++ [(r.pos, cellN, methValue)]
        else st2.files ch }

/-- `_dump_coo_files` (src/scbs/scbs.py lines 359-389): each cell's record
stream is processed in order, the cell's position in the input list being
its column index (`enumerate(fpaths)`). -/
def dump_coo_files (cells : List (List Record)) : DumpState :=
  cells.enum.foldl (fun st nrecs => nrecs.2.foldl (dump_record nrecs.1) st) dumpEmpty

/-- Declarative per-record contribution to chromosome `ch` used to state
C4/C10: `none` for ambiguous records and for records of other chromosomes,
otherwise the single staged triple. -/
def record_entry (ch : String) (cellN : Nat) (r : Record) : Option (Nat × Nat × Int) :=
  if r.n_meth ≠ 0 ∧ r.n_unmeth ≠ 0 then none
  else if r.chrom = ch then some (r.pos, cellN, if 0 < r.n_meth then 1 else -1)
  else none

theorem dump_record_files (cellN : Nat) (st : DumpState) (r : Record) (ch : String) :
    (dump_record cellN st r).files ch =
      st.files ch ++ (record_entry ch cellN r).toList := by
  unfold dump_record record_entry
  by_cases h1 : r.n_meth ≠ 0 ∧ r.n_unmeth ≠ 0
  · simp [h1]
  · by_cases h2 : r.chrom = ch
    · subst h2
      by_cases h3 : st.active r.chrom <;> by_cases h4 : st.sizes r.chrom < r.pos <;>
        simp [h1, h3, h4]
    · have h2s : ¬(ch = r.chrom) := fun h => h2 h.symm
      by_cases h3 : st.active r.chrom <;> by_cases h4 : st.sizes r.chrom < r.pos <;>
        simp [h1, h2, h2s, h3, h4]

theorem dump_records_files (cellN : Nat) (recs : List Record) (st : DumpState)
    (ch : String) :
    (recs.foldl (dump_record cellN) st).files ch =
      st.files ch ++ recs.filterMap (record_entry ch cellN) := by
  induction recs generalizing st with
  | nil => simp
  | cons r rs ih =>
      rw [List.foldl_cons, ih, dump_record_files, List.filterMap_cons]
      cases record_entry ch cellN r <;> simp

theorem dump_pairs_files (ps : List (Nat × List Record)) (st : DumpState) (ch : String) :
    (ps.foldl (fun st' p => p.2.foldl (dump_record p.1) st') st).files ch =
      st.files ch ++ (ps.map (fun p => p.2.filterMap (record_entry ch p.1))).flatten := by
  induction ps generalizing st with
  | nil => simp
  | cons p ps ih => rw [List.foldl_cons, ih, dump_records_files]; simp

/-- C4: for every ingestion input, every staged chromosome stream is exactly
the concatenation, over cells in input order, of the per-record
contributions: an ambiguous record (both counts nonzero) contributes no
triple to any chromosome, any other record contributes exactly one triple
whose value is +1 when the methylated count is positive and -1 otherwise
(see `record_entry`). -/
theorem c4_ambiguous_records_contribute_nothing :
    ∀ (cells : List (List Record)) (ch : String),
      (dump_coo_files cells).files ch =
        (cells.enum.map (fun p => p.2.filterMap (record_entry ch p.1))).flatten ∧
      ∀ (cellN : Nat) (r : Record), r.n_meth ≠ 0 → r.n_unmeth ≠ 0 →
        record_entry ch cellN r = none := by
  intro cells ch
  constructor
  · rw [dump_coo_files, dump_pairs_files]; rfl
  · intro cellN r hm hu
    simp [record_entry, hm, hu]

/-- Witness for C4: a concrete three-record input (one ambiguous record,
one methylated, one unmethylated). -/
theorem c4_ambiguous_records_contribute_nothing_witness :
    (1 : Int) ≠ 0 ∧
    (dump_coo_files
        [[{ chrom := "1", pos := 3, n_meth := 1, n_unmeth := 1 },
          { chrom := "1", pos := 5, n_meth := 2, n_unmeth := 0 },
          { chrom := "1", pos := 9, n_meth := 0, n_unmeth := 3 }]]).files "1" =
      [(5, 0, 1), (9, 0, -1)] := by
  refine ⟨by decide, ?_⟩
  rw [(c4_ambiguous_records_contribute_nothing
    [[{ chrom := "1", pos := 3, n_meth := 1, n_unmeth := 1 },
      { chrom := "1", pos := 5, n_meth := 2, n_unmeth := 0 },
      { chrom := "1", pos := 9, n_meth := 0, n_unmeth := 3 }]] "1").1]
  decide

/-- C10: an ingestion record with methylated count 0 and unmethylated count
0 is not dropped by the ambiguity filter (which requires both counts
nonzero); it is staged as a clean unmethylated call contributing value -1
at (position, cell index). -/
theorem c10_both_zero_record_stored_as_unmethylated :
    ∀ (cells : List (List Record)) (n : Nat) (recs : List Record) (r : Record),
      cells[n]? = some recs → r ∈ recs → r.n_meth = 0 → r.n_unmeth = 0 →
      (r.pos, n, -1) ∈ (dump_coo_files cells).files r.chrom := by
  intro cells n recs r hget hmem hm hu
  rw [dump_coo_files, dump_pairs_files]
  simp only [dumpEmpty, List.nil_append]
  refine List.mem_flatten.mpr ⟨recs.filterMap (record_entry r.chrom n), ?_, ?_⟩
  · exact List.mem_map.mpr ⟨(n, recs),
      List.mem_enum_iff_getElem?.mpr (by simpa using hget), rfl⟩
  · exact List.mem_filterMap.mpr ⟨r, hmem, by simp [record_entry, hm, hu]⟩

/-- Witness for C10: a single both-zero record lands as a -1 entry. -/
theorem c10_both_zero_record_stored_as_unmethylated_witness :
    ([[{ chrom := "chr1", pos := 7, n_meth := 0, n_unmeth := 0 }]] :
        List (List Record))[0]? =
      some [{ chrom := "chr1", pos := 7, n_meth := 0, n_unmeth := 0 }] ∧
    (7, 0, -1) ∈
      (dump_coo_files
        [[{ chrom := "chr1", pos := 7, n_meth := 0, n_unmeth := 0 }]]).files "chr1" := by
  refine ⟨rfl, ?_⟩
  exact c10_both_zero_record_stored_as_unmethylated
    [[{ chrom := "chr1", pos := 7, n_meth := 0, n_unmeth := 0 }]] 0
    [{ chrom := "chr1", pos := 7, n_meth := 0, n_unmeth := 0 }]
    { chrom := "chr1", pos := 7, n_meth := 0, n_unmeth := 0 }
    rfl (List.mem_singleton.mpr rfl) rfl rfl

/-- A compressed-sparse-row matrix as stored by `prepare`: the three flat
arrays of `scipy.sparse.csr_matrix`. -/
structure CSRMat where
  data : List Int
  indices : List Nat
  indptr : List Nat
deriving Repr, DecidableEq

/-- The entries of row `r` of `scipy.sparse.coo_matrix(...).tocsr()`:
scipy canonicalization sums duplicate (row, column) entries, sorts column
indices within a row, and keeps entries whose summed value is zero. -/
def coo_row_entries (triples : List (Nat × Nat × Int)) (nCols r : Nat) :
    List (Nat × Int) :=
  ((List.range nCols).filter
      (fun c => triples.any (fun t => t.1 = r ∧ t.2.1 = c))).map
    (fun c => (c,
      ((triples.filter (fun t => t.1 = r ∧ t.2.1 = c)).map (fun t => t.2.2)).sum))

/-- `sp_sparse.coo_matrix((values, (rows, cols)), shape=(nRows, nCols)).tocsr()`
as called in `prepare` (src/scbs/scbs.py lines 437-443). -/
def coo_to_csr (triples : List (Nat × Nat × Int)) (nRows nCols : Nat) : CSRMat :=
  let rows := (List.range nRows).map (coo_row_entries triples nCols)
  { data := (rows.map (fun row => row.map Prod.snd)).flatten
    indices := (rows.map (fun row => row.map Prod.fst)).flatten
    indptr := List.scanl (· + ·) 0 (rows.map List.length) }

/-- The per-chromosome CSR assembly performed by `prepare`
(src/scbs/scbs.py lines 429-443): the staged COO triples of chromosome `ch`
are assembled into a matrix of shape (chrom_size + 1) × n_cells. -/
def prepare_chrom (cells : List (List Record)) (ch : String) : CSRMat :=
  coo_to_csr ((dump_coo_files cells).files ch)
    ((dump_coo_files cells).sizes ch + 1) cells.length

/-- The number of clean (non-ambiguous) calls streamed for chromosome `ch`. -/
def n_clean_calls (cells : List (List Record)) (ch : String) : Nat :=
  (cells.map (fun recs =>
    recs.countP (fun r =>
      decide (r.chrom = ch ∧ ¬(r.n_meth ≠ 0 ∧ r.n_unmeth ≠ 0))))).sum

theorem countP_eq_sum_map {α : Type} (l : List α) (p : α → Bool) :
    l.countP p = (l.map (fun a => if p a then 1 else 0)).sum := by
  induction l with
  | nil => rfl
  | cons a l ih =>
      by_cases h : p a <;>
        simp [List.countP_cons, h, ih, Nat.add_comm]

theorem countP_split {α : Type} (l : List α) (p q pq : α → Bool)
    (hr : ∀ a, pq a = (p a || q a)) (hpq : ∀ a, ¬(p a = true ∧ q a = true)) :
    l.countP pq = l.countP p + l.countP q := by
  induction l with
  | nil => rfl
  | cons a l ih =>
      simp only [List.countP_cons, ih, hr]
      by_cases hp : p a
      · have hq : ¬ q a = true := fun hq => hpq a ⟨hp, hq⟩
        simp only [hp, hq]
        simp
        omega
      · by_cases hq : q a <;> simp [hp, hq] <;> omega

theorem countP_pair_le_one (T : List (Nat × Nat × Int))
    (h : (T.map (fun t => (t.1, t.2.1))).Nodup) (r c : Nat) :
    T.countP (fun t => decide (t.1 = r ∧ t.2.1 = c)) ≤ 1 := by
  induction T with
  | nil => simp
  | cons t T ih =>
      simp only [List.map_cons, List.nodup_cons] at h
      rw [List.countP_cons]
      by_cases hp : t.1 = r ∧ t.2.1 = c
      · have hz : T.countP (fun t => decide (t.1 = r ∧ t.2.1 = c)) = 0 := by
          rw [List.countP_eq_zero]
          intro b hb hbp
          rw [decide_eq_true_eq] at hbp
          exact h.1 (List.mem_map.mpr ⟨b, hb,
            by rw [hbp.1, hbp.2, hp.1, hp.2]⟩)
        rw [hz, if_pos (decide_eq_true hp)]
      · rw [if_neg (by simpa using hp), Nat.add_zero]
        exact ih h.2

theorem sum_countP_cols (T : List (Nat × Nat × Int)) (r C : Nat) :
    ((List.range C).map
        (fun c => T.countP (fun t => decide (t.1 = r ∧ t.2.1 = c)))).sum =
      T.countP (fun t => decide (t.1 = r ∧ t.2.1 < C)) := by
  induction C with
  | zero =>
      simp [List.countP_eq_zero]
  | succ C ih =>
      rw [List.range_succ, List.map_append, List.sum_append]
      simp only [List.map_cons, List.map_nil, List.sum_cons, List.sum_nil,
        Nat.add_zero]
      rw [ih, ← countP_split T
        (fun t => decide (t.1 = r ∧ t.2.1 < C))
        (fun t => decide (t.1 = r ∧ t.2.1 = C))
        (fun t => decide (t.1 = r ∧ t.2.1 < C + 1))]
      · intro t
        by_cases h1 : t.1 = r <;> by_cases h2 : t.2.1 < C <;>
          by_cases h3 : t.2.1 = C <;> simp [h1, h2, h3] <;> omega
      · intro t ⟨h1, h2⟩
        rw [decide_eq_true_eq] at h1 h2
        omega

theorem sum_countP_rows (T : List (Nat × Nat × Int)) (R C : Nat) :
    ((List.range R).map
        (fun r => T.countP (fun t => decide (t.1 = r ∧ t.2.1 < C)))).sum =
      T.countP (fun t => decide (t.1 < R ∧ t.2.1 < C)) := by
  induction R with
  | zero =>
      simp [List.countP_eq_zero]
  | succ R ih =>
      rw [List.range_succ, List.map_append, List.sum_append]
      simp only [List.map_cons, List.map_nil, List.sum_cons, List.sum_nil,
        Nat.add_zero]
      rw [ih, ← countP_split T
        (fun t => decide (t.1 < R ∧ t.2.1 < C))
        (fun t => decide (t.1 = R ∧ t.2.1 < C))
        (fun t => decide (t.1 < R + 1 ∧ t.2.1 < C))]
      · intro t
        by_cases h1 : t.1 < R <;> by_cases h2 : t.1 = R <;>
          by_cases h3 : t.2.1 < C <;> simp [h1, h2, h3] <;> omega
      · intro t ⟨h1, h2⟩
        rw [decide_eq_true_eq] at h1 h2
        omega

/-- The invariant maintained by `_dump_coo_files` on the staged triples of
chromosome `ch`: positions bounded by the tracked chromosome size, cell
indices bounded by the number of cells, values in {+1, -1}. -/
def DumpInv (N : Nat) (ch : String) (st : DumpState) : Prop :=
  ∀ t ∈ st.files ch, t.1 ≤ st.sizes ch ∧ t.2.1 < N ∧ (t.2.2 = 1 ∨ t.2.2 = -1)

theorem dump_record_sizes_le (cellN : Nat) (st : DumpState) (r : Record)
    (ch : String) : st.sizes ch ≤ (dump_record cellN st r).sizes ch := by
  unfold dump_record
  by_cases h1 : r.n_meth ≠ 0 ∧ r.n_unmeth ≠ 0
  · simp [h1]
  · by_cases h3 : st.active r.chrom <;> by_cases h4 : st.sizes r.chrom < r.pos <;>
      by_cases h5 : ch = r.chrom <;> simp [h1, h3, h4, h5] <;> omega

theorem dump_record_pos_le (cellN : Nat) (st : DumpState) (r : Record)
    (h1 : ¬(r.n_meth ≠ 0 ∧ r.n_unmeth ≠ 0)) :
    r.pos ≤ (dump_record cellN st r).sizes r.chrom := by
  unfold dump_record
  by_cases h3 : st.active r.chrom <;> by_cases h4 : st.sizes r.chrom < r.pos <;>
    simp [h1, h3, h4] <;> omega

theorem dump_record_inv (N : Nat) (ch : String) (cellN : Nat) (st : DumpState)
    (r : Record) (hc : cellN < N) (h : DumpInv N ch st) :
    DumpInv N ch (dump_record cellN st r) := by
  intro t ht
  rw [dump_record_files] at ht
  rcases List.mem_append.mp ht with hold | hnew
  · obtain ⟨hp, hrest⟩ := h t hold
    exact ⟨le_trans hp (dump_record_sizes_le cellN st r ch), hrest⟩
  · unfold record_entry at hnew
    by_cases h1 : r.n_meth ≠ 0 ∧ r.n_unmeth ≠ 0
    · simp [h1] at hnew
    · by_cases h2 : r.chrom = ch
      · simp only [h1, if_false, h2, if_true, Option.toList_some,
          List.mem_singleton] at hnew
        subst hnew
        refine ⟨?_, hc, by by_cases hm : 0 < r.n_meth <;> simp [hm]⟩
        have := dump_record_pos_le cellN st r h1
        rw [h2] at this
        exact this
      · simp [h1, h2] at hnew

theorem dump_records_inv (N : Nat) (ch : String) (cellN : Nat)
    (recs : List Record) (st : DumpState) (hc : cellN < N) (h : DumpInv N ch st) :
    DumpInv N ch (recs.foldl (dump_record cellN) st) := by
  induction recs generalizing st with
  | nil => exact h
  | cons r rs ih => exact ih _ (dump_record_inv N ch cellN st r hc h)

theorem dump_pairs_inv (N : Nat) (ch : String) (ps : List (Nat × List Record))
    (st : DumpState) (hp : ∀ p ∈ ps, p.1 < N) (h : DumpInv N ch st) :
    DumpInv N ch (ps.foldl (fun st' p => p.2.foldl (dump_record p.1) st') st) := by
  induction ps generalizing st with
  | nil => exact h
  | cons p ps ih =>
      exact ih _ (fun q hq => hp q (List.mem_cons_of_mem p hq))
        (dump_records_inv N ch p.1 p.2 st (hp p (List.mem_cons_self p ps)) h)

theorem dump_coo_files_inv (cells : List (List Record)) (ch : String) :
    DumpInv cells.length ch (dump_coo_files cells) := by
  refine dump_pairs_inv cells.length ch cells.enum dumpEmpty ?_ ?_
  · intro p hp
    have := List.mem_enum_iff_getElem?.mp hp
    exact (List.getElem?_eq_some_iff.mp this).1
  · intro t ht
    simp [dumpEmpty] at ht

theorem length_filterMap_eq_countP {α β : Type} (l : List α) (f : α → Option β) :
    (l.filterMap f).length = l.countP (fun a => (f a).isSome) := by
  induction l with
  | nil => rfl
  | cons a l ih =>
      rw [List.filterMap_cons, List.countP_cons]
      cases h : f a <;> simp [h, ih]

theorem scanl_add_chain_le (l : List Nat) (a : Nat) :
    List.Chain' (· ≤ ·) (List.scanl (· + ·) a l) := by
  induction l generalizing a with
  | nil => simp
  | cons x xs ih =>
      rw [List.scanl_cons]
      refine List.chain'_cons'.mpr ⟨?_, ih (a + x)⟩
      intro b hb
      cases xs <;> simp [List.scanl_cons] at hb <;> omega

theorem files_length_eq_n_clean_calls (cells : List (List Record)) (ch : String) :
    ((dump_coo_files cells).files ch).length = n_clean_calls cells ch := by
  rw [dump_coo_files, dump_pairs_files]
  simp only [dumpEmpty, List.nil_append, List.length_flatten, List.map_map]
  rw [n_clean_calls]
  have hmap : cells.enum.map
      (List.length ∘ fun p : Nat × List Record => p.2.filterMap (record_entry ch p.1)) =
      cells.map (fun recs => recs.countP
        (fun r => decide (r.chrom = ch ∧ ¬(r.n_meth ≠ 0 ∧ r.n_unmeth ≠ 0)))) := by
    have h2 : ∀ p : Nat × List Record,
        (List.length ∘ fun p : Nat × List Record =>
          p.2.filterMap (record_entry ch p.1)) p =
        ((fun recs => recs.countP
          (fun r => decide (r.chrom = ch ∧ ¬(r.n_meth ≠ 0 ∧ r.n_unmeth ≠ 0)))) ∘
            Prod.snd) p := by
      intro p
      simp only [Function.comp_apply, length_filterMap_eq_countP]
      refine List.countP_congr ?_
      intro r _
      unfold record_entry
      by_cases h1 : r.n_meth ≠ 0 ∧ r.n_unmeth ≠ 0 <;> by_cases h2 : r.chrom = ch <;>
        simp [h1, h2]
    rw [List.map_congr_left (fun p _ => h2 p), ← List.map_map, List.enum_map_snd]
  rw [hmap]

/-- C5 counterexample: with two clean methylated calls at the same
(position, cell) pair, the scipy COO→CSR conversion performed by `prepare`
sums the duplicates: the assembled store holds a single entry of value 2
(neither -1 nor +1) although two clean calls were streamed, so both the
value invariant and the entry-count property of the claim fail. -/
theorem c5_counterexample_duplicate_calls :
    (prepare_chrom
        [[{ chrom := "1", pos := 5, n_meth := 1, n_unmeth := 0 },
          { chrom := "1", pos := 5, n_meth := 1, n_unmeth := 0 }]] "1").data = [2] ∧
    (prepare_chrom
        [[{ chrom := "1", pos := 5, n_meth := 1, n_unmeth := 0 },
          { chrom := "1", pos := 5, n_meth := 1, n_unmeth := 0 }]] "1").data.length
      = 1 ∧
    n_clean_calls
        [[{ chrom := "1", pos := 5, n_meth := 1, n_unmeth := 0 },
          { chrom := "1", pos := 5, n_meth := 1, n_unmeth := 0 }]] "1" = 2 := by
  decide

/-- C5 (amended): for every chromosome assembled by `prepare`, provided the
clean calls streamed for that chromosome have pairwise distinct
(position, cell) pairs, the resulting CSR store satisfies: row-offset
pointers are non-decreasing, every column index is a valid cell index,
every stored value is exactly -1 or +1, and the number of stored entries
equals the number of clean calls streamed for that chromosome.  (Without
the distinctness hypothesis, scipy sums duplicate COO entries, see the
counterexample.) -/
theorem mem_coo_row_entries {T : List (Nat × Nat × Int)} {nCols r : Nat}
    {e : Nat × Int} (he : e ∈ coo_row_entries T nCols r) :
    e.1 < nCols ∧
    T.any (fun t => t.1 = r ∧ t.2.1 = e.1) = true ∧
    e.2 = ((T.filter (fun t => decide (t.1 = r ∧ t.2.1 = e.1))).map
      (fun t => t.2.2)).sum := by
  rw [coo_row_entries] at he
  obtain ⟨cc, hcc, hecc⟩ := List.mem_map.mp he
  obtain ⟨hmem, hany⟩ := List.mem_filter.mp hcc
  subst hecc
  exact ⟨List.mem_range.mp hmem, hany, rfl⟩

theorem mem_csr_data {T : List (Nat × Nat × Int)} {nRows nCols : Nat} {v : Int}
    (hv : v ∈ (coo_to_csr T nRows nCols).data) :
    ∃ r, r < nRows ∧ ∃ e, e ∈ coo_row_entries T nCols r ∧ v = e.2 := by
  simp only [coo_to_csr, List.mem_flatten, List.mem_map, List.map_map] at hv
  obtain ⟨l, ⟨⟨rr, hrr, hl⟩, hvl⟩⟩ := hv
  subst hl
  obtain ⟨a, ha⟩ : ∃ a, (a, v) ∈ coo_row_entries T nCols rr := by simpa using hvl
  exact ⟨rr, List.mem_range.mp hrr, (a, v), ha, rfl⟩

theorem mem_csr_indices {T : List (Nat × Nat × Int)} {nRows nCols : Nat} {c : Nat}
    (hc : c ∈ (coo_to_csr T nRows nCols).indices) :
    ∃ r, r < nRows ∧ ∃ e, e ∈ coo_row_entries T nCols r ∧ c = e.1 := by
  simp only [coo_to_csr, List.mem_flatten, List.mem_map, List.map_map] at hc
  obtain ⟨l, ⟨⟨rr, hrr, hl⟩, hcl⟩⟩ := hc
  subst hl
  obtain ⟨x, hx⟩ : ∃ x, (c, x) ∈ coo_row_entries T nCols rr := by simpa using hcl
  exact ⟨rr, List.mem_range.mp hrr, (c, x), hx, rfl⟩

theorem csr_data_length (T : List (Nat × Nat × Int)) (nRows nCols : Nat) :
    (coo_to_csr T nRows nCols).data.length =
      ((List.range nRows).map
        (fun r => (List.range nCols).countP
          (fun c => T.any (fun t => t.1 = r ∧ t.2.1 = c)))).sum := by
  simp only [coo_to_csr, List.length_flatten, List.map_map]
  congr 1
  refine List.map_congr_left ?_
  intro r _
  simp only [Function.comp_apply, List.length_map, coo_row_entries]
  rw [← List.countP_eq_length_filter]

theorem range_countP_any_eq (T : List (Nat × Nat × Int))
    (hnodup : (T.map (fun t => (t.1, t.2.1))).Nodup) (r C : Nat) :
    (List.range C).countP (fun c => T.any (fun t => t.1 = r ∧ t.2.1 = c)) =
      ((List.range C).map
        (fun c => T.countP (fun t => decide (t.1 = r ∧ t.2.1 = c)))).sum := by
  rw [countP_eq_sum_map]
  congr 1
  refine List.map_congr_left ?_
  intro c _
  have hle := countP_pair_le_one T hnodup r c
  by_cases hany : T.any (fun t => decide (t.1 = r ∧ t.2.1 = c)) = true
  · have hpos : 0 < T.countP (fun t => decide (t.1 = r ∧ t.2.1 = c)) := by
      rw [List.countP_pos_iff]
      obtain ⟨t, ht, htp⟩ := List.any_eq_true.mp hany
      exact ⟨t, ht, htp⟩
    rw [if_pos hany]
    omega
  · have hz : T.countP (fun t => decide (t.1 = r ∧ t.2.1 = c)) = 0 := by
      rw [List.countP_eq_zero]
      intro a ha hpa
      exact hany (List.any_eq_true.mpr ⟨a, ha, hpa⟩)
    rw [if_neg hany, hz]

/-- C5 (amended): for every chromosome assembled by `prepare`, provided the
clean calls streamed for that chromosome have pairwise distinct
(position, cell) pairs, the resulting CSR store satisfies: row-offset
pointers are non-decreasing, every column index is a valid cell index,
every stored value is exactly -1 or +1, and the number of stored entries
equals the number of clean calls streamed for that chromosome.  (Without
the distinctness hypothesis scipy sums duplicate COO entries and both the
value invariant and the entry count fail, see the counterexample.) -/
theorem c5_csr_invariants :
    ∀ (cells : List (List Record)) (ch : String),
      (((dump_coo_files cells).files ch).map (fun t => (t.1, t.2.1))).Nodup →
      (prepare_chrom cells ch).indptr.Chain' (· ≤ ·) ∧
      (∀ c ∈ (prepare_chrom cells ch).indices, c < cells.length) ∧
      (∀ v ∈ (prepare_chrom cells ch).data, v = 1 ∨ v = -1) ∧
      (prepare_chrom cells ch).data.length = n_clean_calls cells ch := by
  intro cells ch hnodup
  have hinv := dump_coo_files_inv cells ch
  refine ⟨scanl_add_chain_le _ 0, ?_, ?_, ?_⟩
  · intro c hc
    obtain ⟨r, _, e, he, hce⟩ := mem_csr_indices hc
    rw [hce]
    exact (mem_coo_row_entries he).1
  · intro v hv
    obtain ⟨r, _, e, he, hve⟩ := mem_csr_data hv
    obtain ⟨_, hany, hsum⟩ := mem_coo_row_entries he
    set T := (dump_coo_files cells).files ch with hT
    have hpos : 0 < T.countP (fun t => decide (t.1 = r ∧ t.2.1 = e.1)) := by
      rw [List.countP_pos_iff]
      obtain ⟨t, ht, htp⟩ := List.any_eq_true.mp hany
      exact ⟨t, ht, htp⟩
    have hle := countP_pair_le_one T hnodup r e.1
    have hone : (T.filter (fun t => decide (t.1 = r ∧ t.2.1 = e.1))).length = 1 := by
      rw [← List.countP_eq_length_filter]
      omega
    obtain ⟨t, ht⟩ := List.length_eq_one.mp hone
    have htT : t ∈ T := List.mem_of_mem_filter (ht ▸ List.mem_singleton_self t)
    have hval := (hinv t htT).2.2
    rw [hve, hsum, ht]
    simpa using hval
  · have hTlen : ∀ t ∈ (dump_coo_files cells).files ch,
        t.1 < (dump_coo_files cells).sizes ch + 1 ∧ t.2.1 < cells.length := by
      intro t ht
      obtain ⟨h1, h2, _⟩ := hinv t ht
      exact ⟨Nat.lt_succ_of_le h1, h2⟩
    rw [prepare_chrom, csr_data_length, ← files_length_eq_n_clean_calls]
    set T := (dump_coo_files cells).files ch with hT
    calc ((List.range ((dump_coo_files cells).sizes ch + 1)).map
            (fun r => (List.range cells.length).countP
              (fun c => T.any (fun t => t.1 = r ∧ t.2.1 = c)))).sum
        = ((List.range ((dump_coo_files cells).sizes ch + 1)).map
            (fun r => ((List.range cells.length).map
              (fun c => T.countP (fun t => decide (t.1 = r ∧ t.2.1 = c)))).sum)).sum := by
          congr 1
          exact List.map_congr_left (fun r _ => range_countP_any_eq T hnodup r _)
      _ = ((List.range ((dump_coo_files cells).sizes ch + 1)).map
            (fun r => T.countP (fun t => decide (t.1 = r ∧ t.2.1 < cells.length)))).sum := by
          congr 1
          exact List.map_congr_left (fun r _ => sum_countP_cols T r _)
      _ = T.countP (fun t =>
            decide (t.1 < (dump_coo_files cells).sizes ch + 1 ∧ t.2.1 < cells.length)) :=
          sum_countP_rows T _ _
      _ = T.length := by
          rw [List.countP_eq_length]
          intro t ht
          rw [decide_eq_true_eq]
          exact hTlen t ht

/-! ## The Region Statistics Engine: `_calc_mean_shrunken_residuals` and
`_calc_region_stats` -/

/-- Well-formedness of the three backing arrays of a Sparse Chromosome
Store with `chromLen` rows (`mat.shape[0]`) and `nCells` columns, exactly
the canonical-form guarantees of a scipy CSR matrix: index pointers of
length rows+1 starting at 0 and ending at nnz, non-decreasing; column
indices in range and not repeated within a row; stored values ±1 (as
assembled by `prepare`). -/
structure CSRWF (dataChrom : List Int) (indicesChrom : List Nat)
    (indptrChrom : List Nat) (chromLen nCells : Nat) : Prop where
  indptr_length : indptrChrom.length = chromLen + 1
  indices_length : indicesChrom.length = dataChrom.length
  first_eq : indptrChrom.getD 0 0 = 0
  last_eq : indptrChrom.getD chromLen 0 = dataChrom.length
  mono_adj : ∀ i, i < chromLen →
    indptrChrom.getD i 0 ≤ indptrChrom.getD (i + 1) 0
  indices_lt : ∀ c ∈ indicesChrom, c < nCells
  values_pm : ∀ v ∈ dataChrom, v = 1 ∨ v = -1
  row_nodup : ∀ r, r < chromLen →
    ((indicesChrom.drop (indptrChrom.getD r 0)).take
      (indptrChrom.getD (r + 1) 0 - indptrChrom.getD r 0)).Nodup

/-- `np.diff` (consecutive differences; the inputs in this file are
non-decreasing, so the natural subtraction is exact). -/
def natDiff (l : List Nat) : List Nat :=
  List.zipWith (fun a b => b - a) l l.tail

/-- The `while nobs_cpg == 0: cpg_idx += 1; nobs_cpg = indptr_diff[cpg_idx]`
advance of `_calc_mean_shrunken_residuals`; running past the end of
`indptr_diff` is an IndexError, modelled as `none`. -/
def skip_zero_diffs : List Nat → Nat → Nat → Option (List Nat × Nat × Nat)
  | diffs, cpgIdx, n + 1 => some (diffs, cpgIdx, n + 1)
  | [], _, 0 => none
  | d :: ds, cpgIdx, 0 => skip_zero_diffs ds (cpgIdx + 1) d

/-- The accumulation loop of `_calc_mean_shrunken_residuals`
(src/scbs/scbs.py lines 744-758), iterating over the sliced
(cell index, value) entries while tracking which CpG (row) each entry
belongs to via the remaining index-pointer differences.  `meth_sums` adds
the value unless it is -1; `smooth_sums` adds the smoothed-track value at
the entry's genomic position.  The numpy accumulator arrays are modelled as
functions on cell indices. -/
def msr_loop (smoothedVals : Nat → ℚ) (base : Nat) :
    List (Nat × Int) → List Nat → Nat → Nat → (Nat → Int) → (Nat → ℚ) →
    Option ((Nat → Int) × (Nat → ℚ))
  | [], _, _, _, methSums, smoothSums => some (methSums, smoothSums)
  | e :: rest, diffs, cpgIdx, nobsCpg, methSums, smoothSums =>
    match skip_zero_diffs diffs cpgIdx nobsCpg with
    | none => none
    | some (diffs2, cpgIdx2, nobsCpg2) =>
      msr_loop smoothedVals base rest diffs2 cpgIdx2 (nobsCpg2 - 1)
        (if e.2 = -1 then methSums
         else fun c => if c = e.1 then methSums c + e.2 else methSums c)
        (fun c => if c = e.1 then smoothSums c + smoothedVals (base + cpgIdx2)
         else smoothSums c)

/-- `_calc_mean_shrunken_residuals` (src/scbs/scbs.py lines 709-765).
NaN entries of the result are `none`; a crash of the numba code (an
uninitialized `indptr_diff[0]` read, a `bincount` result wider than
`n_cells`, or the tracking loop running past `indptr_diff`) is a `none`
result overall; none of these occur on well-formed inputs. -/
def calc_mean_shrunken_residuals (dataChrom : List Int) (indicesChrom : List Nat)
    (indptrChrom : List Nat) (start end_ : Nat) (smoothedVals : Nat → ℚ)
    (nCells chromLen : Nat) (shrinkageFactor : ℚ) :
    Option (List (Option ℚ)) :=
  if chromLen < start then some (List.replicate nCells none)
  else
    let e := if chromLen < end_ + 1 then chromLen else end_ + 1
    let lo := indptrChrom.getD start 0
    let hi := indptrChrom.getD e 0
    let data := (dataChrom.drop lo).take (hi - lo)
    if data.length = 0 then some (List.replicate nCells none)
    else
      let indices := (indicesChrom.drop lo).take (hi - lo)
      if indices.any (fun c => nCells ≤ c) then none
      else
        let indptr := ((indptrChrom.drop start).take (e + 1 - start)).map
          (fun x => x - lo)
        match natDiff indptr with
        | [] => none
        | d :: ds =>
          match msr_loop smoothedVals start (indices.zip data) ds 0 d
              (fun _ => 0) (fun _ => 0) with
          | none => none
          | some (methSums, smoothSums) =>
            some ((List.range nCells).map (fun i =>
              if 0 < indices.count i then
                some (((methSums i : ℚ) - smoothSums i) /
                  ((indices.count i : ℚ) + shrinkageFactor))
              else none))

/-- The per-entry accumulation loop of `_calc_region_stats`
(lines 818-824): per-cell totals and methylated counts. -/
def region_loop : List (Nat × Int) → (Nat → Int) → (Nat → Int) →
    ((Nat → Int) × (Nat → Int))
  | [], nMeth, nTotal => (nMeth, nTotal)
  | e :: rest, nMeth, nTotal =>
    region_loop rest
      (if e.2 = -1 then nMeth
       else fun c => if c = e.1 then nMeth c + e.2 else nMeth c)
      (fun c => if c = e.1 then nTotal c + 1 else nTotal c)

/-- `_count_n_cpg(region_indptr)` (src/scbs/scbs.py lines 784-795):
count the value changes of the sliced index pointer, starting from
`prev_val = 0`. -/
def count_n_cpg_aux : List Nat → Nat → Nat → Nat
  | [], _, nCpg => nCpg
  | v :: rest, prevVal, nCpg =>
    if v ≠ prevVal then count_n_cpg_aux rest v (nCpg + 1)
    else count_n_cpg_aux rest prevVal nCpg

/-- `_count_n_cpg(region_indptr)`. -/
def count_n_cpg (regionIndptr : List Nat) : Nat :=
  count_n_cpg_aux regionIndptr 0 0

/-- `_calc_region_stats` (src/scbs/scbs.py lines 798-825).  When
`start ≤ chrom_len` and the sliced data is empty, the source never assigns
`n_obs_cpg`; numba zero-initializes such maybe-undefined locals, so 0 is
returned (this branch is routinely taken in production for regions with no
coverage).  `np.divide` of the integer count arrays gives NaN (`none`)
exactly for the 0/0 entries; `n_meth` is only incremented together with
`n_total`, so no nonzero/zero division arises. -/
def calc_region_stats (dataChrom : List Int) (indicesChrom : List Nat)
    (indptrChrom : List Nat) (start end_ : Nat) (nCells chromLen : Nat) :
    List Int × List Int × List (Option ℚ) × Nat :=
  if chromLen < start then
    (List.replicate nCells 0, List.replicate nCells 0,
     List.replicate nCells none, 0)
  else
    let e := if chromLen < end_ + 1 then chromLen else end_ + 1
    let lo := indptrChrom.getD start 0
    let hi := indptrChrom.getD e 0
    let data := (dataChrom.drop lo).take (hi - lo)
    if data.length = 0 then
      (List.replicate nCells 0, List.replicate nCells 0,
       List.replicate nCells none, 0)
    else
      let indices := (indicesChrom.drop lo).take (hi - lo)
      let indptr := ((indptrChrom.drop start).take (e + 1 - start)).map
        (fun x => x - lo)
      let nObsCpg := count_n_cpg indptr
      let ms := region_loop (indices.zip data) (fun _ => 0) (fun _ => 0)
      ((List.range nCells).map ms.1,
       (List.range nCells).map ms.2,
       (List.range nCells).map (fun c =>
         if ms.2 c = 0 then none else some ((ms.1 c : ℚ) / (ms.2 c : ℚ))),
       nObsCpg)

/-! ### Slice algebra for the CSR index-pointer arithmetic -/

theorem drop_take_eq_map_getD {α : Type} (l : List α) (d : α) :
    ∀ (n s : Nat), s + n ≤ l.length →
    (l.drop s).take n = (List.range n).map (fun k => l.getD (s + k) d) := by
  intro n
  induction n with
  | zero => intro s _; simp
  | succ n ih =>
      intro s hs
      have hslt : s < l.length := by omega
      rw [List.drop_eq_getElem_cons hslt, List.take_succ_cons,
        List.range_succ_eq_map, List.map_cons, List.map_map, ih (s + 1) (by omega)]
      congr 1
      · simp [List.getElem?_eq_getElem hslt]
      · refine List.map_congr_left ?_
        intro k _
        simp only [Function.comp_apply]
        congr 1
        omega

theorem le_of_adj_mono (f : Nat → Nat) (s L : Nat)
    (h : ∀ k, k < L → f (s + k) ≤ f (s + k + 1)) :
    ∀ k, k ≤ L → f s ≤ f (s + k) := by
  intro k
  induction k with
  | zero => intro _; simp
  | succ k ih =>
      intro hk
      exact le_trans (ih (by omega)) (h k (by omega))

theorem map_range_succ_shift {α : Type} (h : Nat → α) (L : Nat) :
    (List.range (L + 1)).map h = h 0 :: (List.range L).map (fun k => h (k + 1)) := by
  rw [List.range_succ_eq_map, List.map_cons, List.map_map]
  rfl

theorem natDiff_cons_cons (x y : Nat) (xs : List Nat) :
    natDiff (x :: y :: xs) = (y - x) :: natDiff (y :: xs) := rfl

theorem natDiff_map_range :
    ∀ (L : Nat) (g : Nat → Nat),
    natDiff ((List.range (L + 1)).map g) =
      (List.range L).map (fun k => g (k + 1) - g k) := by
  intro L
  induction L with
  | zero => intro g; rfl
  | succ L ih =>
      intro g
      rw [map_range_succ_shift g (L + 1), map_range_succ_shift (fun k => g (k + 1)) L,
        natDiff_cons_cons, ← map_range_succ_shift (fun k => g (k + 1)) L,
        ih (fun k => g (k + 1)), map_range_succ_shift (fun k => g (k + 1) - g k) L]

theorem count_n_cpg_aux_map_range (f : Nat → Nat) :
    ∀ (L s c prevVal acc : Nat), (∀ k, k < L → f (s + k) ≤ f (s + k + 1)) →
    c ≤ f s →
    count_n_cpg_aux ((List.range (L + 1)).map (fun k => f (s + k) - c))
        prevVal acc =
      acc + (if f s - c = prevVal then 0 else 1) +
        (List.range L).countP (fun k => decide (f (s + k) ≠ f (s + k + 1))) := by
  intro L
  induction L with
  | zero =>
      intro s c prevVal acc _ _
      rw [map_range_succ_shift]
      by_cases h : f s - c = prevVal <;>
        simp [count_n_cpg_aux, h, Nat.add_zero]
  | succ L ih =>
      intro s c prevVal acc hmono hc
      have hfs : f s ≤ f (s + 1) := by simpa using hmono 0 (by omega)
      have hc1 : c ≤ f (s + 1) := le_trans hc hfs
      have hmono1 : ∀ k, k < L → f (s + 1 + k) ≤ f (s + 1 + k + 1) := by
        intro k hk
        have h0 := hmono (k + 1) (by omega)
        have e1 : s + (k + 1) = s + 1 + k := by omega
        rw [e1] at h0
        exact h0
      have hfun : (fun k => f (s + (k + 1)) - c) = (fun k => f (s + 1 + k) - c) := by
        funext k
        have e1 : s + (k + 1) = s + 1 + k := by omega
        rw [e1]
      have hshift : (List.range (L + 1 + 1)).map (fun k => f (s + k) - c) =
          (f s - c) :: (List.range (L + 1)).map (fun k => f (s + 1 + k) - c) := by
        rw [map_range_succ_shift (fun k => f (s + k) - c) (L + 1)]
        show (f s - c) ::
          (List.range (L + 1)).map (fun k => f (s + (k + 1)) - c) = _
        rw [hfun]
      have hcount : (List.range (L + 1)).countP
          (fun k => decide (f (s + k) ≠ f (s + k + 1))) =
          (if f s = f (s + 1) then 0 else 1) +
            (List.range L).countP
              (fun k => decide (f (s + 1 + k) ≠ f (s + 1 + k + 1))) := by
        rw [List.range_succ_eq_map L, List.countP_cons, List.countP_map]
        have hcong : (List.range L).countP
            ((fun k => decide (f (s + k) ≠ f (s + k + 1))) ∘ Nat.succ) =
            (List.range L).countP
              (fun k => decide (f (s + 1 + k) ≠ f (s + 1 + k + 1))) := by
          refine List.countP_congr ?_
          intro k _
          simp only [Function.comp_apply]
          have e1 : s + Nat.succ k = s + 1 + k := by omega
          rw [e1]
        rw [hcong]
        simp only [Nat.add_zero]
        by_cases h : f s = f (s + 1)
        · have hd : decide (f s ≠ f (s + 1)) = false := by simp [h]
          simp [hd, h]
        · have hd : decide (f s ≠ f (s + 1)) = true := by simp [h]
          simp [hd, h, Nat.add_comm]
      rw [hshift]
      by_cases hx : f s - c = prevVal
      · have hstep : count_n_cpg_aux
            ((f s - c) :: (List.range (L + 1)).map (fun k => f (s + 1 + k) - c))
            prevVal acc =
            count_n_cpg_aux ((List.range (L + 1)).map (fun k => f (s + 1 + k) - c))
              prevVal acc := by
          simp [count_n_cpg_aux, hx]
        rw [hstep, ih (s + 1) c prevVal acc hmono1 hc1, hcount]
        split_ifs <;> omega
      · have hstep : count_n_cpg_aux
            ((f s - c) :: (List.range (L + 1)).map (fun k => f (s + 1 + k) - c))
            prevVal acc =
            count_n_cpg_aux ((List.range (L + 1)).map (fun k => f (s + 1 + k) - c))
              (f s - c) (acc + 1) := by
          simp [count_n_cpg_aux, hx]
        rw [hstep, ih (s + 1) c (f s - c) (acc + 1) hmono1 hc1, hcount]
        split_ifs <;> omega

theorem CSRWF.mono {dataChrom : List Int} {indicesChrom : List Nat}
    {indptrChrom : List Nat} {chromLen nCells : Nat}
    (h : CSRWF dataChrom indicesChrom indptrChrom chromLen nCells) :
    ∀ i j, i ≤ j → j ≤ chromLen →
      indptrChrom.getD i 0 ≤ indptrChrom.getD j 0 := by
  intro i j
  induction j with
  | zero =>
      intro hij _
      have h0 : i = 0 := Nat.le_zero.mp hij
      rw [h0]
  | succ j ih =>
      intro hij hj
      by_cases hle : i ≤ j
      · exact le_trans (ih hle (by omega)) (h.mono_adj j (by omega))
      · have he : i = j + 1 := by omega
        rw [he]

theorem sliced_indptr_eq (indptrChrom : List Nat) (start e : Nat)
    (hlen : e + 1 ≤ indptrChrom.length) (hse : start ≤ e) :
    ((indptrChrom.drop start).take (e + 1 - start)).map
        (fun x => x - indptrChrom.getD start 0) =
      (List.range (e - start + 1)).map
        (fun k => indptrChrom.getD (start + k) 0 - indptrChrom.getD start 0) := by
  rw [drop_take_eq_map_getD indptrChrom 0 (e + 1 - start) start (by omega),
    List.map_map]
  have hc : e + 1 - start = e - start + 1 := by omega
  rw [hc]
  rfl

/-- C6: `_calc_region_stats` is total and: (1) if `start` exceeds the
chromosome length, every per-cell count is zero, every fraction is NaN and
the covered-position count is 0; (2) `end` is clipped to the chromosome
length (the result only depends on `min end chrom_len`); (3) on well-formed
arrays the returned covered-position count equals the number of positions
in the sliced interval `[start, min (end+1) chrom_len)` with at least one
stored entry — in particular 0 when the slice holds no entries at all. -/
theorem c6_region_stats_safety :
    ∀ (dataChrom : List Int) (indicesChrom : List Nat) (indptrChrom : List Nat)
      (start end_ nCells chromLen : Nat),
      (chromLen < start →
        calc_region_stats dataChrom indicesChrom indptrChrom start end_
            nCells chromLen =
          (List.replicate nCells 0, List.replicate nCells 0,
           List.replicate nCells none, 0)) ∧
      (chromLen ≤ end_ →
        calc_region_stats dataChrom indicesChrom indptrChrom start end_
            nCells chromLen =
          calc_region_stats dataChrom indicesChrom indptrChrom start chromLen
            nCells chromLen) ∧
      (CSRWF dataChrom indicesChrom indptrChrom chromLen nCells →
        start ≤ chromLen →
        (calc_region_stats dataChrom indicesChrom indptrChrom start end_
            nCells chromLen).2.2.2 =
          ((List.range (min (end_ + 1) chromLen - start)).filter (fun k =>
            decide (indptrChrom.getD (start + k) 0 <
              indptrChrom.getD (start + k + 1) 0))).length) := by
  intro d ix p start end_ nCells chromLen
  refine ⟨?_, ?_, ?_⟩
  · intro h
    unfold calc_region_stats
    rw [if_pos h]
  · intro h
    by_cases hs : chromLen < start
    · unfold calc_region_stats
      rw [if_pos hs, if_pos hs]
    · unfold calc_region_stats
      rw [if_neg hs, if_neg hs]
      have h1 : (if chromLen < end_ + 1 then chromLen else end_ + 1) = chromLen := by
        rw [if_pos (by omega)]
      have h2 : (if chromLen < chromLen + 1 then chromLen else chromLen + 1) =
          chromLen := by
        rw [if_pos (by omega)]
      rw [h1, h2]
  · intro hwf hs
    have hns : ¬ chromLen < start := by omega
    have hmin : (if chromLen < end_ + 1 then chromLen else end_ + 1) =
        min (end_ + 1) chromLen := by
      rcases Nat.lt_or_ge chromLen (end_ + 1) with h | h
      · rw [if_pos h, Nat.min_eq_right (by omega)]
      · rw [if_neg (by omega), Nat.min_eq_left (by omega)]
    simp only [calc_region_stats, hmin]
    rw [if_neg hns]
    have hetop : min (end_ + 1) chromLen ≤ chromLen := Nat.min_le_right _ _
    by_cases hlen :
        ((d.drop (p.getD start 0)).take
          (p.getD (min (end_ + 1) chromLen) 0 - p.getD start 0)).length = 0
    · rw [if_pos hlen]
      have hhilo : p.getD (min (end_ + 1) chromLen) 0 ≤ p.getD start 0 := by
        rw [List.length_take, List.length_drop] at hlen
        have hle : p.getD (min (end_ + 1) chromLen) 0 ≤ d.length := by
          have := hwf.mono (min (end_ + 1) chromLen) chromLen hetop le_rfl
          rw [hwf.last_eq] at this
          exact this
        rcases Nat.min_eq_zero_iff.mp hlen with h1 | h1
        · omega
        · have := hwf.mono start chromLen hs le_rfl
          rw [hwf.last_eq] at this
          omega
      have hfilter : (List.range (min (end_ + 1) chromLen - start)).filter
          (fun k => decide (p.getD (start + k) 0 < p.getD (start + k + 1) 0)) =
          [] := by
        rw [List.filter_eq_nil_iff]
        intro k hk
        have hklt := List.mem_range.mp hk
        have h1 : p.getD (start + k + 1) 0 ≤ p.getD (min (end_ + 1) chromLen) 0 :=
          hwf.mono (start + k + 1) (min (end_ + 1) chromLen) (by omega) hetop
        have h2 : p.getD start 0 ≤ p.getD (start + k) 0 :=
          hwf.mono start (start + k) (by omega) (by omega)
        simp only [decide_eq_true_eq]
        omega
      rw [hfilter]
      rfl
    · rw [if_neg hlen]
      have hlo_le : p.getD (min (end_ + 1) chromLen) 0 ≤ d.length := by
        have := hwf.mono (min (end_ + 1) chromLen) chromLen hetop le_rfl
        rw [hwf.last_eq] at this
        exact this
      have hlohi : p.getD start 0 < p.getD (min (end_ + 1) chromLen) 0 := by
        rw [List.length_take, List.length_drop] at hlen
        omega
      have hse : start < min (end_ + 1) chromLen := by
        by_contra hcon
        have := hwf.mono (min (end_ + 1) chromLen) start (by omega) hs
        omega
    -- the sliced relative index pointer as a map over the window offsets
      rw [sliced_indptr_eq p start (min (end_ + 1) chromLen)
        (by rw [hwf.indptr_length]; omega) (by omega)]
      rw [count_n_cpg]
      have h2 : count_n_cpg_aux
          ((List.range (min (end_ + 1) chromLen - start + 1)).map
            (fun k => p.getD (start + k) 0 - p.getD start 0)) 0 0 =
          (0 + if p.getD start 0 - p.getD start 0 = 0 then 0 else 1) +
            (List.range (min (end_ + 1) chromLen - start)).countP
              (fun k => decide (p.getD (start + k) 0 ≠ p.getD (start + k + 1) 0)) :=
        count_n_cpg_aux_map_range (fun i => p.getD i 0)
          (min (end_ + 1) chromLen - start) start (p.getD start 0) 0 0
          (fun k hk => hwf.mono (start + k) (start + k + 1) (by omega) (by omega))
          le_rfl
      rw [h2, Nat.sub_self]
      simp only [if_pos rfl, Nat.zero_add]
      rw [List.countP_eq_length_filter]
      have hcong : ∀ k ∈ List.range (min (end_ + 1) chromLen - start),
          (decide (p.getD (start + k) 0 ≠ p.getD (start + k + 1) 0)) =
          (decide (p.getD (start + k) 0 < p.getD (start + k + 1) 0)) := by
        intro k hk
        have hklt := List.mem_range.mp hk
        have hle := hwf.mono (start + k) (start + k + 1) (by omega) (by omega)
        rw [decide_eq_decide]
        omega
      rw [List.filter_congr hcong]
      simp

/-- Witness for C6 on a concrete well-formed store: region [1, 2] covers
rows 1 and 2 (both with entries), and an out-of-range start yields the
empty result. -/
theorem c6_region_stats_safety_witness :
    (calc_region_stats [1, -1, -1] [0, 1, 0] [0, 0, 2, 3] 1 2 2 3).2.2.2 =
      ((List.range (min (2 + 1) 3 - 1)).filter (fun k =>
        decide (([0, 0, 2, 3] : List Nat).getD (1 + k) 0 <
          ([0, 0, 2, 3] : List Nat).getD (1 + k + 1) 0))).length ∧
    calc_region_stats [1, -1, -1] [0, 1, 0] [0, 0, 2, 3] 9 9 2 3 =
      (List.replicate 2 0, List.replicate 2 0,
       List.replicate 2 (none : Option ℚ), 0) := by
  constructor
  · exact (c6_region_stats_safety [1, -1, -1] [0, 1, 0] [0, 0, 2, 3] 1 2 2 3).2.2
      ⟨rfl, rfl, rfl, rfl, by decide, by decide, by decide, by decide⟩ (by decide)
  · exact (c6_region_stats_safety [1, -1, -1] [0, 1, 0] [0, 0, 2, 3] 9 9 2 3).1
      (by decide)

/-! ### Characterizing the `_calc_mean_shrunken_residuals` tracking loop -/

/-- The per-entry update of `meth_sums` in the loop body: add the value
unless it is -1. -/
def entry_upd_meth (e : Nat × Int) (m : Nat → Int) : Nat → Int :=
  if e.2 = -1 then m else fun c => if c = e.1 then m c + e.2 else m c

/-- The per-entry update of `smooth_sums`: add the smoothed value `x` of
the entry's row. -/
def entry_upd_smooth (x : ℚ) (e : Nat × Int) (s : Nat → ℚ) : Nat → ℚ :=
  fun c => if c = e.1 then s c + x else s c

/-- Row-structured restatement of the loop: process the rows in order, row
number `idx` contributing smoothed value `sm (base + idx)`. -/
def apply_rows (sm : Nat → ℚ) (base : Nat) :
    List (List (Nat × Int)) → Nat → (Nat → Int) → (Nat → ℚ) →
    ((Nat → Int) × (Nat → ℚ))
  | [], _, meth, smooth => (meth, smooth)
  | row :: rows, idx, meth, smooth =>
      apply_rows sm base rows (idx + 1)
        (row.foldl (fun m e => entry_upd_meth e m) meth)
        (row.foldl (fun s e => entry_upd_smooth (sm (base + idx)) e s) smooth)

theorem msr_loop_pop (sm : Nat → ℚ) (base : Nat) (entries : List (Nat × Int))
    (d : Nat) (ds : List Nat) (cpgIdx : Nat) (meth : Nat → Int)
    (smooth : Nat → ℚ) :
    msr_loop sm base entries (d :: ds) cpgIdx 0 meth smooth =
      msr_loop sm base entries ds (cpgIdx + 1) d meth smooth := by
  cases entries with
  | nil => rfl
  | cons e rest =>
      show (match skip_zero_diffs (d :: ds) cpgIdx 0 with
        | none => none
        | some (diffs2, cpgIdx2, nobsCpg2) =>
          msr_loop sm base rest diffs2 cpgIdx2 (nobsCpg2 - 1)
            (if e.2 = -1 then meth
             else fun c => if c = e.1 then meth c + e.2 else meth c)
            (fun c => if c = e.1 then smooth c + sm (base + cpgIdx2)
             else smooth c)) = _
      rfl

theorem msr_loop_row_consume (sm : Nat → ℚ) (base : Nat) :
    ∀ (row : List (Nat × Int)) (e : Nat × Int) (rest : List (Nat × Int))
      (ds : List Nat) (cpgIdx : Nat) (meth : Nat → Int) (smooth : Nat → ℚ),
    msr_loop sm base (e :: (row ++ rest)) ds cpgIdx (row.length + 1)
        meth smooth =
      msr_loop sm base rest ds cpgIdx 0
        ((e :: row).foldl (fun m en => entry_upd_meth en m) meth)
        ((e :: row).foldl
          (fun s en => entry_upd_smooth (sm (base + cpgIdx)) en s) smooth) := by
  intro row
  induction row with
  | nil =>
      intro e rest ds cpgIdx meth smooth
      simp only [List.nil_append, List.foldl_cons, List.foldl_nil, List.length_nil]
      simp only [msr_loop, skip_zero_diffs, Nat.add_sub_cancel,
        entry_upd_meth, entry_upd_smooth]
      rfl
  | cons e2 row ih =>
      intro e rest ds cpgIdx meth smooth
      have hstep : msr_loop sm base (e :: ((e2 :: row) ++ rest)) ds cpgIdx
          ((e2 :: row).length + 1) meth smooth =
          msr_loop sm base ((e2 :: row) ++ rest) ds cpgIdx (e2 :: row).length
            (entry_upd_meth e meth)
            (entry_upd_smooth (sm (base + cpgIdx)) e smooth) := by
        simp only [msr_loop, skip_zero_diffs, List.length_cons, Nat.add_sub_cancel,
          entry_upd_meth, entry_upd_smooth]
      rw [hstep]
      rw [List.cons_append, List.length_cons] at *
      rw [ih e2 rest ds cpgIdx]
      simp only [List.foldl_cons]

theorem msr_loop_rows_eq (sm : Nat → ℚ) (base : Nat) :
    ∀ (rows : List (List (Nat × Int))) (cpgIdx : Nat) (meth : Nat → Int)
      (smooth : Nat → ℚ),
    msr_loop sm base rows.flatten (rows.map List.length) cpgIdx 0 meth smooth =
      some (apply_rows sm base rows (cpgIdx + 1) meth smooth) := by
  intro rows
  induction rows with
  | nil => intro cpgIdx meth smooth; rfl
  | cons row rows ih =>
      intro cpgIdx meth smooth
      rw [List.flatten_cons, List.map_cons, msr_loop_pop]
      cases row with
      | nil =>
          simp only [List.nil_append, List.length_nil]
          rw [ih (cpgIdx + 1) meth smooth]
          rfl
      | cons e row2 =>
          rw [List.cons_append]
          simp only [List.length_cons]
          rw [msr_loop_row_consume sm base row2 e, ih (cpgIdx + 1)]
          rfl

theorem msr_loop_start_eq (sm : Nat → ℚ) (base : Nat) (row0 : List (Nat × Int))
    (rows : List (List (Nat × Int))) (meth : Nat → Int) (smooth : Nat → ℚ) :
    msr_loop sm base (row0 ++ rows.flatten) (rows.map List.length) 0 row0.length
        meth smooth =
      some (apply_rows sm base (row0 :: rows) 0 meth smooth) := by
  cases row0 with
  | nil =>
      simp only [List.nil_append, List.length_nil]
      rw [msr_loop_rows_eq sm base rows 0 meth smooth]
      rfl
  | cons e row2 =>
      rw [List.cons_append]
      simp only [List.length_cons]
      rw [msr_loop_row_consume sm base row2 e, msr_loop_rows_eq sm base rows 0]
      rfl

/-- The signed sum of the methylated calls of cell `c` in one row: the sum
of the values of its entries of value +1 (on well-formed data this is also
what the loop's `!= -1` test accumulates). -/
def row_meth_add (c : Nat) (row : List (Nat × Int)) : Int :=
  ((row.filter (fun e => decide (e.1 = c) && decide (e.2 = 1))).map
    (fun e => e.2)).sum

/-- The `!= -1` variant actually accumulated by the loop. -/
def row_meth_add_loop (c : Nat) (row : List (Nat × Int)) : Int :=
  ((row.filter (fun e => decide (e.1 = c) && decide (e.2 ≠ -1))).map
    (fun e => e.2)).sum

theorem foldl_entry_upd_meth (c : Nat) :
    ∀ (row : List (Nat × Int)) (m : Nat → Int),
    (row.foldl (fun m e => entry_upd_meth e m) m) c =
      m c + row_meth_add_loop c row := by
  intro row
  induction row with
  | nil => intro m; simp [row_meth_add_loop]
  | cons e row ih =>
      intro m
      rw [List.foldl_cons, ih]
      unfold row_meth_add_loop entry_upd_meth
      by_cases h1 : e.2 = -1
      · simp [h1]
      · by_cases h2 : e.1 = c
        · have h2s : c = e.1 := h2.symm
          rw [if_neg h1, if_pos h2s, List.filter_cons]
          have hcond : (decide (e.1 = c) && decide (e.2 ≠ -1)) = true := by
            simp [h1, h2]
          rw [hcond]
          simp only [eq_self_iff_true, if_true, List.map_cons, List.sum_cons]
          ring
        · have h2s : ¬(c = e.1) := fun h => h2 h.symm
          rw [if_neg h1, if_neg h2s, List.filter_cons]
          have hcond : (decide (e.1 = c) && decide (e.2 ≠ -1)) = false := by
            simp [h2]
          rw [hcond]
          simp

theorem foldl_entry_upd_smooth (x : ℚ) (c : Nat) :
    ∀ (row : List (Nat × Int)) (s : Nat → ℚ),
    (row.foldl (fun s e => entry_upd_smooth x e s) s) c =
      s c + (row.countP (fun e => decide (e.1 = c)) : ℚ) * x := by
  intro row
  induction row with
  | nil => intro s; simp
  | cons e row ih =>
      intro s
      rw [List.foldl_cons, ih]
      unfold entry_upd_smooth
      rw [List.countP_cons]
      by_cases h2 : e.1 = c
      · have h2s : c = e.1 := h2.symm
        have hcond : decide (e.1 = c) = true := by simp [h2]
        rw [if_pos h2s, hcond]
        simp only [eq_self_iff_true, if_true]
        push_cast
        ring
      · have h2s : ¬(c = e.1) := fun h => h2 h.symm
        have hcond : decide (e.1 = c) = false := by simp [h2]
        rw [if_neg h2s, hcond]
        simp

/-- Total loop-side methylation sum over a list of rows. -/
def rows_meth_sum (c : Nat) : List (List (Nat × Int)) → Int
  | [] => 0
  | row :: rows => row_meth_add_loop c row + rows_meth_sum c rows

/-- Total loop-side smoothed sum over a list of rows, row `k` of the list
weighted by `sm (base + idx + k)` times the number of entries of cell `c`
in that row. -/
def rows_smooth_sum (sm : Nat → ℚ) (base c : Nat) :
    List (List (Nat × Int)) → Nat → ℚ
  | [], _ => 0
  | row :: rows, idx =>
      (row.countP (fun e => decide (e.1 = c)) : ℚ) * sm (base + idx) +
        rows_smooth_sum sm base c rows (idx + 1)

theorem apply_rows_fst (sm : Nat → ℚ) (base c : Nat) :
    ∀ (rows : List (List (Nat × Int))) (idx : Nat) (meth : Nat → Int)
      (smooth : Nat → ℚ),
    (apply_rows sm base rows idx meth smooth).1 c = meth c + rows_meth_sum c rows := by
  intro rows
  induction rows with
  | nil => intro idx meth smooth; simp [apply_rows, rows_meth_sum]
  | cons row rows ih =>
      intro idx meth smooth
      rw [apply_rows, ih, foldl_entry_upd_meth, rows_meth_sum]
      ring

theorem apply_rows_snd (sm : Nat → ℚ) (base c : Nat) :
    ∀ (rows : List (List (Nat × Int))) (idx : Nat) (meth : Nat → Int)
      (smooth : Nat → ℚ),
    (apply_rows sm base rows idx meth smooth).2 c =
      smooth c + rows_smooth_sum sm base c rows idx := by
  intro rows
  induction rows with
  | nil => intro idx meth smooth; simp [apply_rows, rows_smooth_sum]
  | cons row rows ih =>
      intro idx meth smooth
      rw [apply_rows, ih, foldl_entry_upd_smooth, rows_smooth_sum]
      ring

/-! ### Declarative per-interval statistics (spec side of C1) -/

/-- The rows of the store in the clipped window `[start, e)`: genomic
position paired with the (cell index, value) entries of that row, read off
the three backing arrays. -/
def region_rows (dataChrom : List Int) (indicesChrom : List Nat)
    (indptrChrom : List Nat) (start e : Nat) :
    List (Nat × List (Nat × Int)) :=
  (List.range (e - start)).map (fun k =>
    (start + k,
      ((indicesChrom.zip dataChrom).drop (indptrChrom.getD (start + k) 0)).take
        (indptrChrom.getD (start + k + 1) 0 - indptrChrom.getD (start + k) 0)))

/-- Observation count of a cell in an interval: the number of covered
positions at which the cell has an entry. -/
def spec_n_obs (prs : List (Nat × List (Nat × Int))) (c : Nat) : Nat :=
  (prs.filter (fun pr => pr.2.any (fun e => decide (e.1 = c)))).length

/-- Raw signed sum of the methylated calls of a cell in an interval. -/
def spec_meth_raw (prs : List (Nat × List (Nat × Int))) (c : Nat) : Int :=
  (prs.map (fun pr => row_meth_add c pr.2)).sum

/-- Sum of the smoothed-track values at every covered position the cell
touches in the interval. -/
def spec_smooth_sum (sm : Nat → ℚ) (prs : List (Nat × List (Nat × Int)))
    (c : Nat) : ℚ :=
  (prs.map (fun pr =>
    if pr.2.any (fun e => decide (e.1 = c)) then sm pr.1 else 0)).sum

theorem countP_flatten {α : Type} (p : α → Bool) :
    ∀ (L : List (List α)), L.flatten.countP p = (L.map (List.countP p)).sum := by
  intro L
  induction L with
  | nil => rfl
  | cons l L ih => rw [List.flatten_cons, List.countP_append, ih]; simp

theorem rows_meth_sum_eq_map (c : Nat) :
    ∀ (rows : List (List (Nat × Int))),
    rows_meth_sum c rows = (rows.map (row_meth_add_loop c)).sum := by
  intro rows
  induction rows with
  | nil => rfl
  | cons row rows ih => rw [rows_meth_sum, ih]; simp

theorem rows_smooth_sum_map_range (sm : Nat → ℚ) (base c : Nat) :
    ∀ (L : Nat) (g : Nat → List (Nat × Int)) (idx : Nat),
    rows_smooth_sum sm base c ((List.range L).map g) idx =
      ((List.range L).map (fun k =>
        ((g k).countP (fun e => decide (e.1 = c)) : ℚ) * sm (base + idx + k))).sum := by
  intro L
  induction L with
  | zero => intro g idx; simp [rows_smooth_sum]
  | succ L ih =>
      intro g idx
      rw [map_range_succ_shift g L, rows_smooth_sum,
        ih (fun k => g (k + 1)) (idx + 1),
        map_range_succ_shift
          (fun k => ((g k).countP (fun e => decide (e.1 = c)) : ℚ) *
            sm (base + idx + k)) L,
        List.sum_cons]
      congr 1
      refine congrArg List.sum (List.map_congr_left ?_)
      intro k _
      have e1 : base + (idx + 1) + k = base + idx + (k + 1) := by omega
      rw [e1]

theorem countP_fst_le_one (row : List (Nat × Int)) (c : Nat)
    (h : (row.map Prod.fst).Nodup) :
    row.countP (fun e => decide (e.1 = c)) ≤ 1 := by
  induction row with
  | nil => simp
  | cons e row ih =>
      simp only [List.map_cons, List.nodup_cons] at h
      rw [List.countP_cons]
      by_cases hp : e.1 = c
      · have hz : row.countP (fun e => decide (e.1 = c)) = 0 := by
          rw [List.countP_eq_zero]
          intro b hb hbp
          rw [decide_eq_true_eq] at hbp
          exact h.1 (List.mem_map.mpr ⟨b, hb, by rw [hbp, hp]⟩)
        rw [hz, if_pos (decide_eq_true hp)]
      · rw [if_neg (by simpa using hp), Nat.add_zero]
        exact ih h.2

theorem drop_take_flatten_rows {α : Type} (l : List α) (f : Nat → Nat) :
    ∀ (L s : Nat), (∀ k, k < L → f (s + k) ≤ f (s + k + 1)) →
    (l.drop (f s)).take (f (s + L) - f s) =
      ((List.range L).map (fun k =>
        (l.drop (f (s + k))).take (f (s + k + 1) - f (s + k)))).flatten := by
  intro L
  induction L with
  | zero => intro s _; simp
  | succ L ih =>
      intro s hmono
      rw [map_range_succ_shift, List.flatten_cons]
      have h0 : f s ≤ f (s + 1) := by simpa using hmono 0 (by omega)
      have hup : f (s + 1) ≤ f (s + 1 + L) :=
        le_of_adj_mono f (s + 1) L (fun k hk => by
          have h2 := hmono (k + 1) (by omega)
          have e1 : s + (k + 1) = s + 1 + k := by omega
          rw [e1] at h2
          exact h2) L le_rfl
      have hargs : s + (L + 1) = s + 1 + L := by omega
      have hsplit : f (s + (L + 1)) - f s =
          (f (s + 1) - f s) + (f (s + (L + 1)) - f (s + 1)) := by
        rw [hargs]
        omega
      rw [hsplit, List.take_add]
      congr 1
      rw [List.drop_drop]
      have h1 : f s + (f (s + 1) - f s) = f (s + 1) := by omega
      rw [h1]
      have h2 := ih (s + 1) (fun k hk => by
        have h3 := hmono (k + 1) (by omega)
        have e1 : s + (k + 1) = s + 1 + k := by omega
        rw [e1] at h3
        exact h3)
      rw [hargs, h2]
      refine congrArg List.flatten (List.map_congr_left ?_)
      intro k _
      have e1 : s + 1 + k = s + (k + 1) := by omega
      rw [e1]

theorem zip_slice_eq {α β : Type} (A : List α) (B : List β) (a b : Nat) :
    ((A.drop a).take b).zip ((B.drop a).take b) = ((A.zip B).drop a).take b := by
  have h1 : (A.zip B).drop a = (A.drop a).zip (B.drop a) := by
    show (A.zipWith Prod.mk B).drop a = _
    rw [List.drop_zipWith]
    rfl
  rw [h1]
  show _ = ((A.drop a).zipWith Prod.mk (B.drop a)).take b
  rw [List.take_zipWith]
  rfl

theorem map_fst_zip_slice {α β : Type} (A : List α) (B : List β)
    (h : A.length ≤ B.length) (a b : Nat) :
    (((A.zip B).drop a).take b).map Prod.fst = (A.drop a).take b := by
  rw [List.map_take, List.map_drop, List.map_fst_zip A B h]

/-- Per-row bridges between what the loop accumulates and the declarative
per-position quantities, valid for rows with distinct cell indices and
values in {+1, -1}. -/
theorem row_bridges (row : List (Nat × Int)) (c : Nat)
    (hnd : (row.map Prod.fst).Nodup)
    (hvals : ∀ e ∈ row, e.2 = 1 ∨ e.2 = -1) :
    row_meth_add_loop c row = row_meth_add c row ∧
    row.countP (fun e => decide (e.1 = c)) =
      (if row.any (fun e => decide (e.1 = c)) then 1 else 0) := by
  constructor
  · rw [row_meth_add_loop, row_meth_add]
    have hfc : ∀ e ∈ row,
        (decide (e.1 = c) && decide (e.2 ≠ -1)) =
        (decide (e.1 = c) && decide (e.2 = 1)) := by
      intro e he
      rcases hvals e he with h | h <;> simp [h]
    rw [List.filter_congr hfc]
  · have hle := countP_fst_le_one row c hnd
    by_cases hany : row.any (fun e => decide (e.1 = c)) = true
    · have hpos : 0 < row.countP (fun e => decide (e.1 = c)) := by
        rw [List.countP_pos_iff]
        obtain ⟨e, he, hep⟩ := List.any_eq_true.mp hany
        exact ⟨e, he, hep⟩
      rw [if_pos hany]
      omega
    · have hz : row.countP (fun e => decide (e.1 = c)) = 0 := by
        rw [List.countP_eq_zero]
        intro e he hep
        exact hany (List.any_eq_true.mpr ⟨e, he, hep⟩)
      rw [hz, if_neg hany]

theorem msr_loop_start_eq2 (sm : Nat → ℚ) (base : Nat) (row0 : List (Nat × Int))
    (rows : List (List (Nat × Int))) (entries : List (Nat × Int)) (ds : List Nat)
    (n : Nat) (meth : Nat → Int) (smooth : Nat → ℚ)
    (hent : entries = row0 ++ rows.flatten)
    (hds : ds = rows.map List.length)
    (hn : n = row0.length) :
    msr_loop sm base entries ds 0 n meth smooth =
      some (apply_rows sm base (row0 :: rows) 0 meth smooth) := by
  rw [hent, hds, hn, msr_loop_start_eq]

/-- C1: on well-formed backing arrays, `_calc_mean_shrunken_residuals`
returns, for every cell with at least one observation in the (clipped)
interval, (raw signed sum of methylated calls − sum of smoothed-track
values at every covered position the cell touches) / (observation count +
1), and NaN for every cell with zero observations. -/
theorem c1_mean_shrunken_residuals :
    ∀ (dataChrom : List Int) (indicesChrom : List Nat) (indptrChrom : List Nat)
      (start end_ : Nat) (sm : Nat → ℚ) (nCells chromLen : Nat),
      CSRWF dataChrom indicesChrom indptrChrom chromLen nCells →
      calc_mean_shrunken_residuals dataChrom indicesChrom indptrChrom start end_
          sm nCells chromLen 1 =
        some ((List.range nCells).map (fun c =>
          if 0 < spec_n_obs (region_rows dataChrom indicesChrom indptrChrom
              start (min (end_ + 1) chromLen)) c then
            some (((spec_meth_raw (region_rows dataChrom indicesChrom indptrChrom
                  start (min (end_ + 1) chromLen)) c : ℚ) -
                spec_smooth_sum sm (region_rows dataChrom indicesChrom indptrChrom
                  start (min (end_ + 1) chromLen)) c) /
              ((spec_n_obs (region_rows dataChrom indicesChrom indptrChrom
                  start (min (end_ + 1) chromLen)) c : ℚ) + 1))
          else none)) := by
  intro d ix p start end_ sm nCells chromLen hwf
  by_cases hcs : chromLen < start
  · unfold calc_mean_shrunken_residuals
    rw [if_pos hcs]
    have hL0 : min (end_ + 1) chromLen - start = 0 := by
      have := Nat.min_le_right (end_ + 1) chromLen
      omega
    rw [region_rows, hL0]
    simp only [List.range_zero, List.map_nil]
    refine congrArg some ?_
    have hmap : (List.range nCells).map (fun c =>
        if 0 < spec_n_obs ([] : List (Nat × List (Nat × Int))) c then
          some (((spec_meth_raw ([] : List (Nat × List (Nat × Int))) c : ℚ) -
              spec_smooth_sum sm ([] : List (Nat × List (Nat × Int))) c) /
            ((spec_n_obs ([] : List (Nat × List (Nat × Int))) c : ℚ) + 1))
        else none) =
        (List.range nCells).map (fun _ => (none : Option ℚ)) :=
      List.map_congr_left (fun c _ => by rfl)
    rw [hmap, List.map_const', List.length_range]
  · simp only [calc_mean_shrunken_residuals]
    have hmin : (if chromLen < end_ + 1 then chromLen else end_ + 1) =
        min (end_ + 1) chromLen := by
      rcases Nat.lt_or_ge chromLen (end_ + 1) with h | h
      · rw [if_pos h, Nat.min_eq_right (by omega)]
      · rw [if_neg (by omega), Nat.min_eq_left (by omega)]
    rw [hmin, if_neg hcs]
    set E := min (end_ + 1) chromLen with hE
    set LO := p.getD start 0 with hLO
    set HI := p.getD E 0 with hHI
    have hs : start ≤ chromLen := by omega
    have hEc : E ≤ chromLen := Nat.min_le_right _ _
    have hplen : p.length = chromLen + 1 := hwf.indptr_length
    have hixd : ix.length = d.length := hwf.indices_length
    have hlast : p.getD chromLen 0 = d.length := hwf.last_eq
    have hLOle : LO ≤ d.length := by
      have h2 := hwf.mono start chromLen hs le_rfl
      rw [hlast] at h2
      exact h2
    have hHIle : HI ≤ d.length := by
      have h2 := hwf.mono E chromLen hEc le_rfl
      rw [hlast] at h2
      exact h2
    have hdlen : ((d.drop LO).take (HI - LO)).length = HI - LO := by
      rw [List.length_take, List.length_drop]
      omega
    by_cases hlen : ((d.drop LO).take (HI - LO)).length = 0
    · rw [if_pos hlen]
      have hhilo : HI ≤ LO := by
        rw [hdlen] at hlen
        omega
      have hrows0 : ∀ c, spec_n_obs (region_rows d ix p start E) c = 0 := by
        intro c
        rw [spec_n_obs, List.length_eq_zero, List.filter_eq_nil_iff]
        intro pr hpr
        obtain ⟨k, hk, hprk⟩ := List.mem_map.mp hpr
        have hklt := List.mem_range.mp hk
        have h1 : p.getD (start + k + 1) 0 ≤ HI :=
          hwf.mono (start + k + 1) E (by omega) hEc
        have h2 : LO ≤ p.getD (start + k) 0 :=
          hwf.mono start (start + k) (by omega) (by omega)
        have hdz : p.getD (start + k + 1) 0 - p.getD (start + k) 0 = 0 := by
          omega
        rw [← hprk]
        show ¬((List.take (p.getD (start + k + 1) 0 - p.getD (start + k) 0)
          (List.drop (p.getD (start + k) 0) (ix.zip d))).any
            (fun e => decide (e.1 = c)) = true)
        rw [hdz, List.take_zero]
        simp
      refine congrArg some ?_
      symm
      have hmap2 : (List.range nCells).map (fun c =>
          if 0 < spec_n_obs (region_rows d ix p start E) c then
            some (((spec_meth_raw (region_rows d ix p start E) c : ℚ) -
                spec_smooth_sum sm (region_rows d ix p start E) c) /
              ((spec_n_obs (region_rows d ix p start E) c : ℚ) + 1))
          else none) =
          (List.range nCells).map (fun _ => (none : Option ℚ)) :=
        List.map_congr_left (fun c _ => by rw [hrows0 c]; rfl)
      rw [hmap2, List.map_const', List.length_range]
    · rw [if_neg hlen]
      have hlohi : LO < HI := by
        rw [hdlen] at hlen
        omega
      have hsE : start < E := by
        by_contra hcon
        have h2 := hwf.mono E start (by omega) hs
        omega
      have hany : (((ix.drop LO).take (HI - LO)).any
          (fun c => decide (nCells ≤ c))) = false := by
        rw [List.any_eq_false]
        intro x hx
        have hx2 : x ∈ ix := List.mem_of_mem_drop (List.mem_of_mem_take hx)
        have hx3 := hwf.indices_lt x hx2
        simp only [decide_eq_true_eq]
        omega
      simp only [hany, Bool.false_eq_true, if_false]
      have hdiffs : natDiff (((p.drop start).take (E + 1 - start)).map
          (fun x => x - LO)) =
          (List.range (E - start)).map
            (fun k => p.getD (start + k + 1) 0 - p.getD (start + k) 0) := by
        rw [sliced_indptr_eq p start E (by omega) (by omega), natDiff_map_range]
        refine List.map_congr_left ?_
        intro k hk
        have hklt := List.mem_range.mp hk
        have h1 : LO ≤ p.getD (start + k) 0 :=
          hwf.mono start (start + k) (by omega) (by omega)
        have h2 : p.getD (start + k) 0 ≤ p.getD (start + k + 1) 0 :=
          hwf.mono (start + k) (start + k + 1) (by omega) (by omega)
        have e1 : start + (k + 1) = start + k + 1 := by omega
        rw [e1]
        omega
      have hentries : ((ix.drop LO).take (HI - LO)).zip
          ((d.drop LO).take (HI - LO)) =
          ((List.range (E - start)).map (fun k =>
            ((ix.zip d).drop (p.getD (start + k) 0)).take
              (p.getD (start + k + 1) 0 - p.getD (start + k) 0))).flatten := by
        rw [zip_slice_eq]
        have h2 := drop_take_flatten_rows (ix.zip d) (fun i => p.getD i 0)
          (E - start) start (fun k hk =>
            hwf.mono (start + k) (start + k + 1) (by omega) (by omega))
        rw [show start + (E - start) = E from by omega] at h2
        exact h2
      have hrowlen : ∀ k, k < E - start →
          (((ix.zip d).drop (p.getD (start + k) 0)).take
            (p.getD (start + k + 1) 0 - p.getD (start + k) 0)).length =
          p.getD (start + k + 1) 0 - p.getD (start + k) 0 := by
        intro k hk
        rw [List.length_take, List.length_drop]
        have hzlen : (ix.zip d).length = d.length := by
          rw [List.length_zip, hixd, Nat.min_self]
        rw [hzlen]
        have h1 : p.getD (start + k + 1) 0 ≤ d.length := by
          have h2 := hwf.mono (start + k + 1) chromLen (by omega) le_rfl
          rw [hlast] at h2
          exact h2
        have h3 : p.getD (start + k) 0 ≤ p.getD (start + k + 1) 0 :=
          hwf.mono (start + k) (start + k + 1) (by omega) (by omega)
        omega
      obtain ⟨L2, hL2⟩ : ∃ L2, E - start = L2 + 1 := ⟨E - start - 1, by omega⟩
      have hdiffs2 : natDiff (((p.drop start).take (E + 1 - start)).map
          (fun x => x - LO)) =
          (p.getD (start + 0 + 1) 0 - p.getD (start + 0) 0) ::
            (List.range L2).map
              (fun k => p.getD (start + (k + 1) + 1) 0 -
                p.getD (start + (k + 1)) 0) := by
        rw [hdiffs, hL2, map_range_succ_shift]
      have hentries2 : ((ix.drop LO).take (HI - LO)).zip
          ((d.drop LO).take (HI - LO)) =
          (((ix.zip d).drop (p.getD (start + 0) 0)).take
            (p.getD (start + 0 + 1) 0 - p.getD (start + 0) 0)) ++
          ((List.range L2).map (fun k =>
            ((ix.zip d).drop (p.getD (start + (k + 1)) 0)).take
              (p.getD (start + (k + 1) + 1) 0 -
                p.getD (start + (k + 1)) 0))).flatten := by
        rw [hentries, hL2, map_range_succ_shift, List.flatten_cons]
      have hds : (List.range L2).map
          (fun k => p.getD (start + (k + 1) + 1) 0 - p.getD (start + (k + 1)) 0) =
          ((List.range L2).map (fun k =>
            ((ix.zip d).drop (p.getD (start + (k + 1)) 0)).take
              (p.getD (start + (k + 1) + 1) 0 -
                p.getD (start + (k + 1)) 0))).map List.length := by
        rw [List.map_map]
        refine List.map_congr_left ?_
        intro k hk
        have hklt := List.mem_range.mp hk
        exact (hrowlen (k + 1) (by omega)).symm
      have hd0 : p.getD (start + 0 + 1) 0 - p.getD (start + 0) 0 =
          (((ix.zip d).drop (p.getD (start + 0) 0)).take
            (p.getD (start + 0 + 1) 0 - p.getD (start + 0) 0)).length :=
        (hrowlen 0 (by omega)).symm
      rw [hdiffs2]
      simp only []
      rw [msr_loop_start_eq2 sm start _ _ _ _ _ _ _ hentries2 hds hd0]
      simp only []
      refine congrArg some ?_
      have hrows_eq : (((ix.zip d).drop (p.getD (start + 0) 0)).take
            (p.getD (start + 0 + 1) 0 - p.getD (start + 0) 0)) ::
          (List.range L2).map (fun k =>
            ((ix.zip d).drop (p.getD (start + (k + 1)) 0)).take
              (p.getD (start + (k + 1) + 1) 0 -
                p.getD (start + (k + 1)) 0)) =
          (List.range (L2 + 1)).map (fun k =>
            ((ix.zip d).drop (p.getD (start + k) 0)).take
              (p.getD (start + k + 1) 0 - p.getD (start + k) 0)) :=
        (map_range_succ_shift (fun k =>
          ((ix.zip d).drop (p.getD (start + k) 0)).take
            (p.getD (start + k + 1) 0 - p.getD (start + k) 0)) L2).symm
      rw [hrows_eq, region_rows, hL2]
      have hixslice : (ix.drop LO).take (HI - LO) =
          (((List.range (L2 + 1)).map (fun k =>
            ((ix.zip d).drop (p.getD (start + k) 0)).take
              (p.getD (start + k + 1) 0 - p.getD (start + k) 0))).flatten).map
            Prod.fst := by
        have h2 : (ix.drop LO).take (HI - LO) =
            (((ix.zip d).drop LO).take (HI - LO)).map Prod.fst :=
          (map_fst_zip_slice ix d (le_of_eq hixd) LO (HI - LO)).symm
        rw [h2, ← zip_slice_eq, hentries, hL2]
      have hnd : ∀ k, k < L2 + 1 →
          ((((ix.zip d).drop (p.getD (start + k) 0)).take
            (p.getD (start + k + 1) 0 - p.getD (start + k) 0)).map
              Prod.fst).Nodup := by
        intro k hk
        rw [map_fst_zip_slice ix d (le_of_eq hixd)]
        exact hwf.row_nodup (start + k) (by omega)
      have hvals : ∀ k, k < L2 + 1 →
          ∀ e ∈ ((ix.zip d).drop (p.getD (start + k) 0)).take
            (p.getD (start + k + 1) 0 - p.getD (start + k) 0),
          e.2 = 1 ∨ e.2 = -1 := by
        intro k hk e he
        have he2 : e ∈ ix.zip d := List.mem_of_mem_drop (List.mem_of_mem_take he)
        have he3 := List.of_mem_zip (show (e.1, e.2) ∈ ix.zip d from by
          simpa using he2)
        exact hwf.values_pm e.2 he3.2
      refine List.map_congr_left ?_
      intro c hc
      have hcnt : List.count c ((ix.drop LO).take (HI - LO)) =
          spec_n_obs ((List.range (L2 + 1)).map (fun k =>
            (start + k, ((ix.zip d).drop (p.getD (start + k) 0)).take
              (p.getD (start + k + 1) 0 - p.getD (start + k) 0)))) c := by
        rw [hixslice, List.count_eq_countP, List.countP_map, countP_flatten,
          List.map_map]
        rw [spec_n_obs, ← List.countP_eq_length_filter, List.countP_map,
          countP_eq_sum_map]
        refine congrArg List.sum (List.map_congr_left ?_)
        intro k hk
        have hklt := List.mem_range.mp hk
        simp only [Function.comp_apply]
        have hcg : (((ix.zip d).drop (p.getD (start + k) 0)).take
            (p.getD (start + k + 1) 0 - p.getD (start + k) 0)).countP
              ((fun x => x == c) ∘ Prod.fst) =
            (((ix.zip d).drop (p.getD (start + k) 0)).take
              (p.getD (start + k + 1) 0 - p.getD (start + k) 0)).countP
                (fun e => decide (e.1 = c)) := by
          refine List.countP_congr ?_
          intro e _
          by_cases h : e.1 = c <;> simp [h]
        rw [hcg, (row_bridges _ c (hnd k hklt) (hvals k hklt)).2]
      have hmeth : (apply_rows sm start ((List.range (L2 + 1)).map (fun k =>
            ((ix.zip d).drop (p.getD (start + k) 0)).take
              (p.getD (start + k + 1) 0 - p.getD (start + k) 0))) 0
            (fun _ => 0) (fun _ => 0)).1 c =
          spec_meth_raw ((List.range (L2 + 1)).map (fun k =>
            (start + k, ((ix.zip d).drop (p.getD (start + k) 0)).take
              (p.getD (start + k + 1) 0 - p.getD (start + k) 0)))) c := by
        rw [apply_rows_fst, rows_meth_sum_eq_map, List.map_map, spec_meth_raw,
          List.map_map]
        simp only [Int.zero_add]
        refine congrArg List.sum (List.map_congr_left ?_)
        intro k hk
        have hklt := List.mem_range.mp hk
        simp only [Function.comp_apply]
        exact (row_bridges _ c (hnd k hklt) (hvals k hklt)).1
      have hsmooth : (apply_rows sm start ((List.range (L2 + 1)).map (fun k =>
            ((ix.zip d).drop (p.getD (start + k) 0)).take
              (p.getD (start + k + 1) 0 - p.getD (start + k) 0))) 0
            (fun _ => 0) (fun _ => 0)).2 c =
          spec_smooth_sum sm ((List.range (L2 + 1)).map (fun k =>
            (start + k, ((ix.zip d).drop (p.getD (start + k) 0)).take
              (p.getD (start + k + 1) 0 - p.getD (start + k) 0)))) c := by
        rw [apply_rows_snd, rows_smooth_sum_map_range, spec_smooth_sum,
          List.map_map]
        simp only [zero_add]
        refine congrArg List.sum (List.map_congr_left ?_)
        intro k hk
        have hklt := List.mem_range.mp hk
        simp only [Function.comp_apply]
        rw [(row_bridges _ c (hnd k hklt) (hvals k hklt)).2]
        by_cases h : (((ix.zip d).drop (p.getD (start + k) 0)).take
            (p.getD (start + k + 1) 0 - p.getD (start + k) 0)).any
              (fun e => decide (e.1 = c)) = true
        · rw [if_pos h, if_pos h]
          have e1 : start + 0 + k = start + k := by omega
          rw [e1]
          push_cast
          ring
        · rw [if_neg h, if_neg h]
          push_cast
          ring
      rw [hcnt, hmeth, hsmooth]

/-- Witness for C1: the shrunken-residual characterization instantiated on a
concrete 3-position, 2-cell chromosome with interval [1, 2] and constant
smoothed track 1/2. -/
theorem c1_mean_shrunken_residuals_witness :
    CSRWF [1, -1, -1] [0, 1, 0] [0, 0, 2, 3] 3 2 ∧
    calc_mean_shrunken_residuals [1, -1, -1] [0, 1, 0] [0, 0, 2, 3] 1 2
        (fun _ => (1 : ℚ) / 2) 2 3 1 =
      some ((List.range 2).map (fun c =>
        if 0 < spec_n_obs (region_rows [1, -1, -1] [0, 1, 0] [0, 0, 2, 3]
            1 (min (2 + 1) 3)) c then
          some (((spec_meth_raw (region_rows [1, -1, -1] [0, 1, 0] [0, 0, 2, 3]
                1 (min (2 + 1) 3)) c : ℚ) -
              spec_smooth_sum (fun _ => (1 : ℚ) / 2) (region_rows [1, -1, -1]
                [0, 1, 0] [0, 0, 2, 3] 1 (min (2 + 1) 3)) c) /
            ((spec_n_obs (region_rows [1, -1, -1] [0, 1, 0] [0, 0, 2, 3]
                1 (min (2 + 1) 3)) c : ℚ) + 1))
        else none)) := by
  have hwf : CSRWF [1, -1, -1] [0, 1, 0] [0, 0, 2, 3] 3 2 :=
    ⟨rfl, rfl, rfl, rfl, by decide, by decide, by decide, by decide⟩
  exact ⟨hwf, c1_mean_shrunken_residuals [1, -1, -1] [0, 1, 0] [0, 0, 2, 3]
    1 2 (fun _ => (1 : ℚ) / 2) 2 3 hwf⟩

/-- Witness for C5: two cells with one clean call each at distinct
(position, cell) pairs; the CSR invariants hold and the entry count is the
number of clean calls. -/
theorem c5_csr_invariants_witness :
    (((dump_coo_files
        [[{ chrom := "1", pos := 1, n_meth := 1, n_unmeth := 0 }],
         [{ chrom := "1", pos := 2, n_meth := 0, n_unmeth := 1 }]]).files
        "1").map (fun t => (t.1, t.2.1))).Nodup ∧
    ((prepare_chrom
        [[{ chrom := "1", pos := 1, n_meth := 1, n_unmeth := 0 }],
         [{ chrom := "1", pos := 2, n_meth := 0, n_unmeth := 1 }]]
        "1").indptr.Chain' (· ≤ ·) ∧
      (∀ c ∈ (prepare_chrom
          [[{ chrom := "1", pos := 1, n_meth := 1, n_unmeth := 0 }],
           [{ chrom := "1", pos := 2, n_meth := 0, n_unmeth := 1 }]]
          "1").indices,
        c < (2 : Nat)) ∧
      (∀ v ∈ (prepare_chrom
          [[{ chrom := "1", pos := 1, n_meth := 1, n_unmeth := 0 }],
           [{ chrom := "1", pos := 2, n_meth := 0, n_unmeth := 1 }]]
          "1").data, v = 1 ∨ v = -1) ∧
      (prepare_chrom
          [[{ chrom := "1", pos := 1, n_meth := 1, n_unmeth := 0 }],
           [{ chrom := "1", pos := 2, n_meth := 0, n_unmeth := 1 }]]
          "1").data.length =
        n_clean_calls
          [[{ chrom := "1", pos := 1, n_meth := 1, n_unmeth := 0 }],
           [{ chrom := "1", pos := 2, n_meth := 0, n_unmeth := 1 }]] "1") := by
  have h : (((dump_coo_files
      [[{ chrom := "1", pos := 1, n_meth := 1, n_unmeth := 0 }],
       [{ chrom := "1", pos := 2, n_meth := 0, n_unmeth := 1 }]]).files
      "1").map (fun t => (t.1, t.2.1))).Nodup := by decide
  exact ⟨h, c5_csr_invariants
    [[{ chrom := "1", pos := 1, n_meth := 1, n_unmeth := 0 }],
     [{ chrom := "1", pos := 2, n_meth := 0, n_unmeth := 1 }]] "1" h⟩

/- ### The genome scanner (`scan`, src/scbs/scbs.py lines 828-906) -/

/-- `np.nanvar` (default ddof 0): population variance of the non-NaN
entries; NaN when every entry is NaN. -/
def nanvar (xs : List (Option ℚ)) : Option ℚ :=
  let vs := xs.filterMap id
  if vs.length = 0 then none
  else
    let m := vs.sum / vs.length
    some ((vs.map (fun v => (v - m) ^ 2)).sum / vs.length)

/-- `np.nanquantile` with the default linear interpolation: drop the NaNs,
sort, and interpolate at fractional index `q * (n - 1)`; NaN when no
non-NaN value exists. -/
def nanquantile (xs : List (Option ℚ)) (q : ℚ) : Option ℚ :=
  let vs := (xs.filterMap id).mergeSort (fun a b => decide (a ≤ b))
  if vs.length = 0 then none
  else
    let idx := q * ((vs.length - 1 : ℕ) : ℚ)
    let i : ℕ := min (Int.toNat ⌊idx⌋) (vs.length - 1)
    let j : ℕ := min (i + 1) (vs.length - 1)
    let frac := idx - (⌊idx⌋ : ℚ)
    some (vs.getD i 0 + frac * (vs.getD j 0 - vs.getD i 0))

/-- `np.arange(start, stop, step)` as `scan` uses it: a non-negative start,
a stop that may be negative, a positive step. -/
def arange (start : Nat) (stop : Int) (step : Nat) : List Nat :=
  (List.range (((stop - start).toNat + step - 1) / step)).map
    (fun k => start + k * step)

/-- The per-chromosome inputs `scan` loads: the chromosome name, the size
of its `.npz` file (used only for the processing order), the CSR matrix,
the smoothed track and the matrix shape. -/
structure ChromData where
  name : String
  fsize : Nat
  data : List Int
  indices : List Nat
  indptr : List Nat
  smoothed : Nat → ℚ
  nCells : Nat
  chromLen : Nat

/-- `np.nonzero(mat.getnnz(axis=1))[0]` (line 849): the genomic positions
whose CSR row holds at least one stored entry. -/
def cpg_pos_chrom (c : ChromData) : List Nat :=
  (List.range c.chromLen).filter
    (fun i => decide (c.indptr.getD (i + 1) 0 - c.indptr.getD i 0 ≠ 0))

/-- `_move_windows` (src/scbs/scbs.py lines 677-706): the window grid
`np.arange(start, end, stepsize)` and, for each window position `pos`, the
nan-variance of the shrunken residuals of `[pos - half_bw, pos + half_bw]`.
`none` models a crash of the residual computation. -/
def move_windows (start : Nat) (stop : Int) (step halfBw : Nat)
    (dataChrom : List Int) (indicesChrom : List Nat) (indptrChrom : List Nat)
    (smoothedVals : Nat → ℚ) (nCells chromLen : Nat) :
    Option (List Nat × List (Option ℚ)) :=
  let windows := arange start stop step
  (windows.mapM (fun pos =>
    (calc_mean_shrunken_residuals dataChrom indicesChrom indptrChrom
      (pos - halfBw) (pos + halfBw) smoothedVals nCells chromLen 1).map
      nanvar)).map
    (fun vars => (windows, vars))

/-- One iteration of `scan`'s chromosome loop up to the window variances
(lines 846-870): `cpg_pos_chrom[0]` raises IndexError (`none`) on a
chromosome with no covered position; otherwise the windows run from
`cpg_pos[0] + half_bw + 1` to `cpg_pos[-1] - half_bw - 1`. -/
def scan_chrom_windows (c : ChromData) (halfBw step : Nat) :
    Option (List Nat × List (Option ℚ)) :=
  match cpg_pos_chrom c with
  | [] => none
  | p0 :: rest =>
    move_windows (p0 + halfBw + 1) (((p0 :: rest).getLastD 0 : Int) - halfBw - 1)
      step halfBw c.data c.indices c.indptr c.smoothed c.nCells c.chromLen

/-- The chromosome loop of `scan` (lines 841-895), threading
`var_threshold_value`: `none` before the first chromosome is seen, then the
nanquantile found there (itself possibly NaN).  The result pairs the final
threshold state with the emitted peaks (chromosome name, start, end);
`none` is a crash on some chromosome. -/
def scan_go (halfBw step : Nat) (cutoff : ℚ) :
    List ChromData → Option (Option ℚ) →
    Option (Option (Option ℚ) × List (String × Int × Int))
  | [], thr => some (thr, [])
  | c :: rest, thr =>
    match scan_chrom_windows c halfBw step with
    | none => none
    | some wv =>
      let thrV : Option ℚ :=
        match thr with
        | none => nanquantile wv.2 (1 - cutoff)
        | some t => t
      let pk := find_peaks wv.2 (wv.1.map (fun w => (w : Int))) thrV halfBw
      match scan_go halfBw step cutoff rest (some thrV) with
      | none => none
      | some r =>
        some (r.1, (pk.1.zip pk.2).map (fun q => (c.name, q.1, q.2)) ++ r.2)

/-- The largest-first ordering of lines 834-838: chromosome files sorted by
file size, descending (Python's `sorted(..., reverse=True)` is stable, as
is `mergeSort`). -/
def sortChroms (chroms : List ChromData) : List ChromData :=
  chroms.mergeSort (fun a b => decide (b.fsize ≤ a.fsize))

/-- `scan` (lines 828-906), reduced to its peak output and threshold
state. -/
def scan (chroms : List ChromData) (halfBw step : Nat) (cutoff : ℚ) :
    Option (Option (Option ℚ) × List (String × Int × Int)) :=
  scan_go halfBw step cutoff (sortChroms chroms) none

/-- Specification-side scanner: every chromosome is peak-called with one
fixed threshold that is never recomputed. -/
def scan_fixed (halfBw step : Nat) (thr : Option ℚ) :
    List ChromData → Option (List (String × Int × Int))
  | [] => some []
  | c :: rest =>
    match scan_chrom_windows c halfBw step with
    | none => none
    | some wv =>
      let pk := find_peaks wv.2 (wv.1.map (fun w => (w : Int))) thr halfBw
      (scan_fixed halfBw step thr rest).map
        (fun peaks => (pk.1.zip pk.2).map (fun q => (c.name, q.1, q.2)) ++ peaks)

theorem scan_go_fixed (halfBw step : Nat) (cutoff : ℚ) (thr : Option ℚ) :
    ∀ cs : List ChromData,
      scan_go halfBw step cutoff cs (some thr) =
        (scan_fixed halfBw step thr cs).map (fun peaks => (some thr, peaks)) := by
  intro cs
  induction cs with
  | nil => rfl
  | cons c rest ih =>
      rw [scan_go, scan_fixed]
      cases scan_chrom_windows c halfBw step with
      | none => rfl
      | some wv =>
          simp only [ih]
          cases scan_fixed halfBw step thr rest with
          | none => rfl
          | some peaks => rfl

/-- C3: `scan` processes the chromosomes in (stable) decreasing order of
file size, and the single variance threshold is the `(1 - cutoff)`
nanquantile of the per-window variances of the first (largest) chromosome;
every chromosome, the first included, is then peak-called with exactly this
one threshold, which is never recomputed. -/
theorem c3_threshold_from_largest_chromosome :
    ∀ (chroms : List ChromData) (halfBw step : Nat) (cutoff : ℚ)
      (c0 : ChromData) (cs : List ChromData) (wv0 : List Nat × List (Option ℚ)),
      sortChroms chroms = c0 :: cs →
      scan_chrom_windows c0 halfBw step = some wv0 →
      (sortChroms chroms).Pairwise (fun a b => b.fsize ≤ a.fsize) ∧
      (sortChroms chroms).Perm chroms ∧
      scan chroms halfBw step cutoff =
        (scan_fixed halfBw step (nanquantile wv0.2 (1 - cutoff)) (c0 :: cs)).map
          (fun peaks => (some (nanquantile wv0.2 (1 - cutoff)), peaks)) := by
  intro chroms halfBw step cutoff c0 cs wv0 hsort hw0
  refine ⟨?_, ?_, ?_⟩
  · have h := @List.sorted_mergeSort ChromData
      (fun a b => decide (b.fsize ≤ a.fsize))
      (fun a b c hab hbc => by
        simp only [decide_eq_true_eq] at hab hbc ⊢
        exact le_trans hbc hab)
      (fun a b => by
        simp only [Bool.or_eq_true, decide_eq_true_eq]
        exact le_total b.fsize a.fsize)
      chroms
    rw [show chroms.mergeSort (fun a b => decide (b.fsize ≤ a.fsize)) =
        sortChroms chroms from rfl] at h
    refine h.imp ?_
    intro a b hab
    exact decide_eq_true_eq.mp hab
  · exact List.mergeSort_perm chroms _
  · rw [scan, hsort, scan_go, hw0]
    simp only []
    rw [scan_go_fixed]
    rw [scan_fixed, hw0]
    simp only []
    cases hrest : scan_fixed halfBw step (nanquantile wv0.2 (1 - cutoff)) cs with
    | none => rfl
    | some peaks => rfl

/-- A one-cell, two-position demonstration chromosome for the scanner. -/
def scanDemoChrom : ChromData :=
  { name := "1", fsize := 1, data := [1], indices := [0],
    indptr := [0, 1, 1], smoothed := fun _ => 0, nCells := 1, chromLen := 2 }

/-- Witness for C3: a single one-entry chromosome whose window grid is
empty; the threshold there is the nanquantile of an empty variance list. -/
theorem c3_threshold_from_largest_chromosome_witness :
    sortChroms [scanDemoChrom] = scanDemoChrom :: [] ∧
    scan_chrom_windows scanDemoChrom 1 1 = some ([], []) ∧
    (sortChroms [scanDemoChrom]).Pairwise (fun a b => b.fsize ≤ a.fsize) ∧
    (sortChroms [scanDemoChrom]).Perm [scanDemoChrom] ∧
    scan [scanDemoChrom] 1 1 (1 / 2) =
      (scan_fixed 1 1 (nanquantile ([] : List (Option ℚ)) (1 - 1 / 2))
          (scanDemoChrom :: [])).map
        (fun peaks => (some (nanquantile ([] : List (Option ℚ)) (1 - 1 / 2)),
          peaks)) := by
  have h1 : sortChroms [scanDemoChrom] = scanDemoChrom :: [] := by
    simp [sortChroms]
  have h2 : scan_chrom_windows scanDemoChrom 1 1 = some ([], []) := rfl
  have h := c3_threshold_from_largest_chromosome [scanDemoChrom] 1 1 (1 / 2)
    scanDemoChrom [] ([], []) h1 h2
  exact ⟨h1, h2, h.1, h.2.1, h.2.2⟩

/- ### The baseline smoother (`Smoother`, src/scbs/scbs.py lines 464-498) -/

/-- The tricube kernel of `Smoother.__init__` (lines 467-469): `bandwidth`
points at integer offsets `j - hbw`, relative distance `|j - hbw| / hbw`,
weight `(1 - rel_dist^3)^3`. -/
def tricube_kernel (bandwidth : Nat) : List ℚ :=
  (List.range bandwidth).map (fun (j : Nat) =>
    (1 - |(((j : ℚ)) - (bandwidth / 2 : Nat)) / ((bandwidth / 2 : Nat) : ℚ)| ^ 3) ^ 3)

/-- `mfracs` of `Smoother.__init__` (lines 471-473): per position, the
stored entries greater than zero over the stored entry count; NaN (`none`,
from `0/0`) where the position has no stored entry. -/
def smoother_mfracs (dataChrom : List Int) (indptrChrom : List Nat)
    (chromLen : Nat) : List (Option ℚ) :=
  (List.range chromLen).map (fun i =>
    let lo := indptrChrom.getD i 0
    let hi := indptrChrom.getD (i + 1) 0
    let row := (dataChrom.drop lo).take (hi - lo)
    if row.length = 0 then none
    else some ((row.countP (fun v => decide (0 < v)) : ℚ) / (row.length : ℚ)))

/-- `cpg_pos` of `Smoother.__init__` (line 474): the positions whose raw
methylation fraction is defined. -/
def smoother_cpg_pos (mfracs : List (Option ℚ)) : List Nat :=
  (List.range mfracs.length).filter (fun i => (mfracs.getD i none).isSome)

/-- One iteration of `Smoother.smooth_whole_chrom` (lines 483-495,
`weigh=False`): the window is the slice `mfracs[i - hbw : i + hbw]`; the
kernel is masked by the window's defined entries, which raises IndexError
(caught: NaN) unless the window length equals the kernel length; a zero
weight sum is `0/0` (NaN). -/
def smooth_pos (mfracs : List (Option ℚ)) (kernel : List ℚ) (hbw : Nat)
    (i : Nat) : Option ℚ :=
  let window := pySlice mfracs ((i : Int) - hbw) ((i : Int) + hbw)
  if window.length = kernel.length then
    let pairs := (window.zip kernel).filterMap
      (fun wk => wk.1.map (fun v => (v, wk.2)))
    let den := (pairs.map (fun q => q.2)).sum
    if den = 0 then none
    else some ((pairs.map (fun q => q.1 * q.2)).sum / den)
  else none

/-- `Smoother(mat, bandwidth, weigh=False).smooth_whole_chrom()`: the
smoothed value at every covered position. -/
def smooth_whole_chrom (dataChrom : List Int) (indptrChrom : List Nat)
    (chromLen bandwidth : Nat) : List (Nat × Option ℚ) :=
  let mfracs := smoother_mfracs dataChrom indptrChrom chromLen
  (smoother_cpg_pos mfracs).map
    (fun i => (i, smooth_pos mfracs (tricube_kernel bandwidth) (bandwidth / 2) i))

/-- The C7 scenario chromosome: 14 positions, one methylated call at
position 10 and one unmethylated call at position 12. -/
def c7D : List Int := [1, -1]

/-- Its index pointer (15 entries for 14 positions). -/
def c7P : List Nat := [0, 0, 0, 0, 0, 0, 0, 0, 0, 0, 0, 1, 1, 2, 2]

set_option maxHeartbeats 1000000 in
theorem c7_mfracs_eval :
    smoother_mfracs c7D c7P 14 =
      [none, none, none, none, none, none, none, none, none, none,
       some 1, none, some 0, none] := by
  have hr : List.range 14 = [0, 1, 2, 3, 4, 5, 6, 7, 8, 9, 10, 11, 12, 13] := by
    decide
  unfold smoother_mfracs
  rw [hr]
  norm_num [c7D, c7P]

theorem tricube4_eval :
    tricube_kernel 4 = [0, 343 / 512, 1, 343 / 512] := by
  have hr : List.range 4 = [0, 1, 2, 3] := by decide
  unfold tricube_kernel
  rw [hr]
  have habs : |(1 : ℚ) / 2| = 1 / 2 := abs_of_nonneg (by norm_num)
  norm_num [habs]

theorem c7_smooth10_eval :
    smooth_pos (smoother_mfracs c7D c7P 14) (tricube_kernel 4) 2 10 = some 1 := by
  rw [c7_mfracs_eval, tricube4_eval]
  norm_num [smooth_pos, pySlice, pySliceIdx, List.filterMap_cons,
    show Int.toNat 8 = 8 from rfl, show Int.toNat 12 = 12 from rfl]

/-- C7 counterexample: with bandwidth 4 (half-width 2) and raw fractions
defined exactly at positions 10 (1.0) and 12 (0.0), the smoothing window
of position 10 is the slice `mfracs[8:12]`, which covers positions 8-11
and does **not** contain position 12 (12 does not fall within [8, 12));
the smoothed value at 10 is exactly 1.0, the fraction of position 10
alone, not a blend of both fractions. -/
theorem c7_counterexample_window_excludes_12 :
    smoother_cpg_pos (smoother_mfracs c7D c7P 14) = [10, 12] ∧
    (smoother_mfracs c7D c7P 14).getD 12 none = some 0 ∧
    pySlice (smoother_mfracs c7D c7P 14) ((10 : Int) - 2) ((10 : Int) + 2) =
      [none, none, some 1, none] ∧
    smooth_pos (smoother_mfracs c7D c7P 14) (tricube_kernel 4) 2 10 = some 1 := by
  refine ⟨?_, ?_, ?_, c7_smooth10_eval⟩
  · rw [c7_mfracs_eval]
    decide
  · rw [c7_mfracs_eval]
    rfl
  · rw [c7_mfracs_eval]
    norm_num [pySlice, pySliceIdx,
      show Int.toNat 8 = 8 from rfl, show Int.toNat 12 = 12 from rfl]

/-- C7 (amended): the smoothing window of position `i` is the slice
`mfracs[i - hbw : i + hbw]`, i.e. the half-open range `[i - H, i + H)`:
the smoothed value depends only on the raw fractions at those positions
(position `i + H` excluded), and in the bandwidth-4 scenario with
fractions at 10 (1.0) and 12 (0.0) the smoothed value at position 10 is
exactly 1.0 — position 12 lies outside the window, so no blend occurs. -/
theorem c7_window_is_half_open :
    (∀ (mf mf' : List (Option ℚ)) (kernel : List ℚ) (hbw i : Nat),
      mf.length = mf'.length → hbw ≤ i →
      (∀ j, i - hbw ≤ j → j < i + hbw → mf.getD j none = mf'.getD j none) →
      smooth_pos mf kernel hbw i = smooth_pos mf' kernel hbw i) ∧
    smooth_pos (smoother_mfracs c7D c7P 14) (tricube_kernel 4) 2 10 = some 1 := by
  refine ⟨?_, c7_smooth10_eval⟩
  intro mf mf' kernel hbw i hlen hhbw hagree
  have hwin : pySlice mf ((i : Int) - hbw) ((i : Int) + hbw) =
      pySlice mf' ((i : Int) - hbw) ((i : Int) + hbw) := by
    have hs : pySliceIdx mf.length ((i : Int) - hbw) =
        min (i - hbw) mf.length := by
      unfold pySliceIdx
      rw [if_neg (by push_cast; omega)]
      omega
    have he : pySliceIdx mf.length ((i : Int) + hbw) =
        min (i + hbw) mf.length := by
      unfold pySliceIdx
      rw [if_neg (by push_cast; omega)]
      omega
    simp only [pySlice, ← hlen, hs, he]
    by_cases hcase : min (i + hbw) mf.length ≤ min (i - hbw) mf.length
    · rw [Nat.sub_eq_zero_of_le hcase]
      simp
    · have hle : min (i - hbw) mf.length +
          (min (i + hbw) mf.length - min (i - hbw) mf.length) ≤
          mf.length := by omega
      rw [drop_take_eq_map_getD mf none _ _ hle,
        drop_take_eq_map_getD mf' none _ _ (hlen ▸ hle)]
      refine List.map_congr_left ?_
      intro k hk
      have hk' := List.mem_range.mp hk
      exact hagree _ (by omega) (by omega)
  unfold smooth_pos
  rw [hwin]

/-- Witness for C7: two fraction tracks that agree on the window [8, 12)
of position 10 but differ at position 12 get the same smoothed value at
position 10 (bandwidth 4). -/
theorem c7_window_is_half_open_witness :
    ([none, none, none, none, none, none, none, none, none, none, some 1,
        none, some 0, none] : List (Option ℚ)).length =
      ([none, none, none, none, none, none, none, none, none, none, some 1,
        none, some 1, none] : List (Option ℚ)).length ∧
    (2 : Nat) ≤ 10 ∧
    (∀ j, 10 - 2 ≤ j → j < 10 + 2 →
      ([none, none, none, none, none, none, none, none, none, none, some 1,
          none, some 0, none] : List (Option ℚ)).getD j none =
        ([none, none, none, none, none, none, none, none, none, none, some 1,
          none, some 1, none] : List (Option ℚ)).getD j none) ∧
    smooth_pos [none, none, none, none, none, none, none, none, none, none,
        some 1, none, some 0, none] (tricube_kernel 4) 2 10 =
      smooth_pos [none, none, none, none, none, none, none, none, none, none,
        some 1, none, some 1, none] (tricube_kernel 4) 2 10 := by
  have hag : ∀ j, 10 - 2 ≤ j → j < 10 + 2 →
      ([none, none, none, none, none, none, none, none, none, none, some 1,
          none, some 0, none] : List (Option ℚ)).getD j none =
        ([none, none, none, none, none, none, none, none, none, none, some 1,
          none, some 1, none] : List (Option ℚ)).getD j none := by
    intro j h1 h2
    interval_cases j <;> rfl
  exact ⟨rfl, by norm_num, hag,
    c7_window_is_half_open.1
      [none, none, none, none, none, none, none, none, none, none, some 1,
        none, some 0, none]
      [none, none, none, none, none, none, none, none, none, none, some 1,
        none, some 1, none]
      (tricube_kernel 4) 2 10 rfl (by norm_num) hag⟩

/-- The C8 scenario chromosome: 13 positions, a single methylated call at
the last position 12. -/
def c8D : List Int := [1]

/-- Its index pointer (14 entries for 13 positions). -/
def c8P : List Nat := [0, 0, 0, 0, 0, 0, 0, 0, 0, 0, 0, 0, 0, 1]

set_option maxHeartbeats 1000000 in
theorem c8_mfracs_eval :
    smoother_mfracs c8D c8P 13 =
      [none, none, none, none, none, none, none, none, none, none,
       none, none, some 1] := by
  have hr : List.range 13 = [0, 1, 2, 3, 4, 5, 6, 7, 8, 9, 10, 11, 12] := by
    decide
  unfold smoother_mfracs
  rw [hr]
  norm_num [c8D, c8P]

/-- C8 counterexample: at position 12 of a 13-position chromosome
(bandwidth 4, half-width 2) the window slice `mfracs[10:14]` is truncated
by the chromosome **end** to length 3 while the kernel keeps length 4, so
the smoothed value is NaN — although 12 is not near the chromosome start
(half-width ≤ 12): the length mismatch is not only possible near the
start. -/
theorem c8_counterexample_end_truncation :
    (2 : Nat) ≤ 12 ∧
    (pySlice (smoother_mfracs c8D c8P 13) ((12 : Int) - 2)
      ((12 : Int) + 2)).length = 3 ∧
    (tricube_kernel 4).length = 4 ∧
    (smoother_mfracs c8D c8P 13).getD 12 none = some 1 ∧
    smooth_pos (smoother_mfracs c8D c8P 13) (tricube_kernel 4) 2 12 = none := by
  refine ⟨by norm_num, ?_, ?_, ?_, ?_⟩
  · rw [c8_mfracs_eval]
    norm_num [pySlice, pySliceIdx,
      show Int.toNat 10 = 10 from rfl, show Int.toNat 14 = 14 from rfl]
  · rw [tricube4_eval]
    rfl
  · rw [c8_mfracs_eval]
    rfl
  · rw [c8_mfracs_eval, tricube4_eval]
    unfold smooth_pos
    rw [if_neg (by norm_num [pySlice, pySliceIdx,
      show Int.toNat 10 = 10 from rfl, show Int.toNat 14 = 14 from rfl])]

/-- C8 (amended): whenever the window slice cannot be length-aligned with
the kernel, the smoothed value is NaN; and away from the wrap-around zone
(`hbw ≤ i`), the lengths align exactly when the window also fits before
the chromosome end (`i + hbw ≤ L`) — the mismatch occurs near the **end**
of the chromosome as well as near the start. -/
theorem c8_mismatch_gives_nan :
    (∀ (mf : List (Option ℚ)) (kernel : List ℚ) (hbw i : Nat),
      (pySlice mf ((i : Int) - hbw) ((i : Int) + hbw)).length ≠ kernel.length →
      smooth_pos mf kernel hbw i = none) ∧
    (∀ (mf : List (Option ℚ)) (hbw i : Nat), 0 < hbw → hbw ≤ i →
      ((pySlice mf ((i : Int) - hbw) ((i : Int) + hbw)).length =
          (tricube_kernel (2 * hbw)).length ↔ i + hbw ≤ mf.length)) := by
  constructor
  · intro mf kernel hbw i hne
    unfold smooth_pos
    rw [if_neg hne]
  · intro mf hbw i hpos hhbw
    have hs : pySliceIdx mf.length ((i : Int) - hbw) =
        min (i - hbw) mf.length := by
      unfold pySliceIdx
      rw [if_neg (by push_cast; omega)]
      omega
    have he : pySliceIdx mf.length ((i : Int) + hbw) =
        min (i + hbw) mf.length := by
      unfold pySliceIdx
      rw [if_neg (by push_cast; omega)]
      omega
    have hklen : (tricube_kernel (2 * hbw)).length = 2 * hbw := by
      unfold tricube_kernel
      rw [List.length_map, List.length_range]
    simp only [pySlice, hs, he, List.length_take, List.length_drop, hklen]
    simp only [min_def]
    split_ifs <;> omega

/-- Witness for C8: a 5-long all-NaN track with half-width 2; at position
4 the window length differs from the kernel length and the smoothed value
is NaN, and the alignment criterion of the second part evaluates at
position 2. -/
theorem c8_mismatch_gives_nan_witness :
    (pySlice ([none, none, none, none, none] : List (Option ℚ))
        ((4 : Int) - 2) ((4 : Int) + 2)).length ≠ (tricube_kernel 4).length ∧
    smooth_pos [none, none, none, none, none] (tricube_kernel 4) 2 4 = none ∧
    (0 : Nat) < 2 ∧ (2 : Nat) ≤ 2 ∧
    ((pySlice ([none, none, none, none, none] : List (Option ℚ))
        ((2 : Int) - 2) ((2 : Int) + 2)).length =
      (tricube_kernel (2 * 2)).length ↔
      2 + 2 ≤ ([none, none, none, none, none] : List (Option ℚ)).length) := by
  have hne : (pySlice ([none, none, none, none, none] : List (Option ℚ))
      ((4 : Int) - 2) ((4 : Int) + 2)).length ≠ (tricube_kernel 4).length := by
    rw [tricube4_eval]
    norm_num [pySlice, pySliceIdx,
      show Int.toNat 2 = 2 from rfl, show Int.toNat 6 = 6 from rfl]
  exact ⟨hne,
    c8_mismatch_gives_nan.1 [none, none, none, none, none] (tricube_kernel 4)
      2 4 hne,
    by norm_num, by norm_num,
    c8_mismatch_gives_nan.2 [none, none, none, none, none] 2 2
      (by norm_num) (by norm_num)⟩

end Scbs
